import Mathlib

/-!
Verification of the fmdtools simulation and propagation engine against its
natural-language specification.

The development shallowly embeds the relevant parts of the source:

* `fmdtools/sim/sample.py` — time-sampling helpers (`sample_times_even`,
  `sample_times_quad`), `FaultDomain` accumulation and `FaultSample`
  scenario construction;
* `fmdtools/define/block/base.py` — `Simulable.get_scen_rate`;
* `fmdtools/define/model.py` — `Model.propagate` and `Model.prop_static`,
  the two-phase per-timestep propagation algorithm.

Python floats are modelled as exact rationals, Python ints as `Int`/`Nat`.
Identifiers (function, flow and mode names, which are strings in the
source) are modelled as interned natural-number ids, written `Name` below.
-/

namespace Fmdtools

/-- Names of functions, flows and fault modes. The source uses Python
strings; they are interned here as natural numbers. -/
abbrev Name := ℕ

/-! ## Python rounding and numpy quantile

Python `round` rounds to the nearest integer with ties going to the even
neighbour. `np.quantile` (default linear-interpolation method) sorts its
input and linearly interpolates at fractional position `q * (n - 1)`. -/

/-- Floor of a rational, computed from numerator and denominator. -/
def ratFloor (x : ℚ) : ℤ := x.num.fdiv x.den

theorem ratFloor_eq (x : ℚ) : ratFloor x = ⌊x⌋ := by
  rw [Rat.floor_def, ratFloor, Int.fdiv_eq_ediv _ (by positivity)]

theorem ratFloor_eq_of (x : ℚ) (z : ℤ) (h1 : (z : ℚ) ≤ x) (h2 : x < z + 1) :
    ratFloor x = z := by
  rw [ratFloor_eq]
  exact Int.floor_eq_iff.mpr ⟨h1, by linarith⟩

/-- Python built-in `round` on an exact rational: nearest integer, ties to
the even integer. -/
def pyRound (x : ℚ) : ℤ :=
  let f : ℤ := ratFloor x
  let r : ℚ := x - f
  if r < 1/2 then f
  else if 1/2 < r then f + 1
  else if f % 2 = 0 then f else f + 1

theorem pyRound_lt (x : ℚ) (z : ℤ) (h1 : (z : ℚ) ≤ x) (h2 : x - z < 1/2) :
    pyRound x = z := by
  have hf : ratFloor x = z := ratFloor_eq_of x z h1 (by linarith)
  simp only [pyRound, hf]
  rw [if_pos h2]

theorem pyRound_gt (x : ℚ) (z : ℤ) (h1 : 1/2 < x - z) (h2 : x < z + 1) :
    pyRound x = z + 1 := by
  have hf : ratFloor x = z := ratFloor_eq_of x z (by linarith) h2
  simp only [pyRound, hf]
  rw [if_neg (by linarith), if_pos h1]

theorem pyRound_half (x : ℚ) (z : ℤ) (h : x - z = 1/2) :
    pyRound x = if z % 2 = 0 then z else z + 1 := by
  have hf : ratFloor x = z := ratFloor_eq_of x z (by linarith) (by linarith)
  simp only [pyRound, hf]
  rw [if_neg (by linarith), if_neg (by linarith)]

/-- `pyRound` returns a nearest integer: its distance to the argument is
at most one half. -/
theorem pyRound_dist (x : ℚ) : |(pyRound x : ℚ) - x| ≤ 1/2 := by
  have h1 : (⌊x⌋ : ℚ) ≤ x := Int.floor_le x
  have h2 : x < ⌊x⌋ + 1 := Int.lt_floor_add_one x
  simp only [pyRound, ratFloor_eq]
  rcases lt_or_le (x - ⌊x⌋) (1/2) with h | h
  · rw [if_pos h, abs_le]
    constructor <;> linarith
  · rw [if_neg (by linarith)]
    rcases lt_or_le (1/2) (x - ⌊x⌋) with h' | h'
    · rw [if_pos h', abs_le]
      constructor <;> push_cast <;> linarith
    · have hx : x - ⌊x⌋ = 1/2 := le_antisymm h' h
      rw [if_neg (by linarith)]
      rcases em ((⌊x⌋ : ℤ) % 2 = 0) with he | he
      · rw [if_pos he, abs_le]
        constructor <;> linarith
      · rw [if_neg he, abs_le]
        constructor <;> push_cast <;> linarith

/-- Linear interpolation step of `np.quantile` over the sorted data `a`
(with head `x`) at fractional position `h`. -/
def interpAt (a : List ℚ) (x : ℚ) (h : ℚ) : ℚ :=
  let i : ℤ := ratFloor h
  let iN : ℕ := i.toNat
  let lo := a.getD iN x
  let hi := a.getD (iN + 1) lo
  lo + (h - i) * (hi - lo)

/-- `np.quantile(ts, q)` with the default linear-interpolation method:
sort the data, then interpolate at fractional position `q * (n - 1)`.
Returns 0 on an empty list (numpy raises there; every call site below
guards the empty case away). -/
def npQuantile (ts : List ℚ) (q : ℚ) : ℚ :=
  match List.insertionSort (· ≤ ·) ts with
  | [] => 0
  | x :: rest => interpAt (x :: rest) x (q * (((x :: rest).length : ℚ) - 1))

/-- Evaluation rule for `npQuantile` once the sorted list, the floor of
the fractional position, and the two interpolation endpoints are known. -/
theorem npQuantile_eq (ts : List ℚ) (q : ℚ) (x : ℚ) (rest : List ℚ)
    (hs : List.insertionSort (· ≤ ·) ts = x :: rest) (i : ℤ)
    (hi : ratFloor (q * (((x :: rest).length : ℚ) - 1)) = i)
    (lo hv : ℚ) (hlo : (x :: rest).getD i.toNat x = lo)
    (hhv : (x :: rest).getD (i.toNat + 1) lo = hv) :
    npQuantile ts q =
      lo + (q * (((x :: rest).length : ℚ) - 1) - i) * (hv - lo) := by
  simp only [npQuantile, hs, interpAt]
  rw [hi, hlo, hhv]

/-- Error raised by `sample_times_quad` when there are more quadrature
nodes than candidate times. -/
inductive SampleErr : Type where
  | tooManyNodes : SampleErr
deriving DecidableEq

/-- Embedding of `sample_times_even` (fmdtools/sim/sample.py, lines 26-55).
If `numpts + 2` exceeds the number of candidate times, every candidate
time is used; otherwise the interior points of
`[np.quantile(times, p/(numpts+1)) for p in range(numpts+2)]` are taken
and rounded to the nearest multiple of `dt`. The weights are
`1/len(sampletimes)` each. -/
def sample_times_even (times : List ℚ) (numpts : ℕ) (dt : ℚ) : List ℚ × List ℚ :=
  let sampletimes :=
    if times.length < numpts + 2 then times
    else
      ((((List.range (numpts + 2)).map
          (fun (p : ℕ) => npQuantile times ((p : ℚ) / ((numpts : ℚ) + 1)))).drop 1).dropLast).map
        (fun pt => ((pyRound (pt / dt) : ℚ) * dt))
  (sampletimes, sampletimes.map (fun _ => 1 / (sampletimes.length : ℚ)))

/-- Embedding of `sample_times_quad` (fmdtools/sim/sample.py, lines 57-90).
Nodes are mapped to quantiles `node/2 + 0.5`, each quantile of the time
list is rounded with Python `round` and truncated to `int`, and the
weights are divided by their sum. Raises when there are more nodes than
candidate times. -/
def sample_times_quad (times nodes weights : List ℚ) :
    Except SampleErr (List ℤ × List ℚ) :=
  let quantiles := nodes.map (fun nd => nd / 2 + 1/2)
  if times.length < quantiles.length then .error .tooManyNodes
  else .ok (quantiles.map (fun q => pyRound (npQuantile times q)),
            weights.map (fun w => w / weights.sum))

/-! Concrete evaluations used by the example clauses of claims C5 and C6. -/

theorem npQuantile_5_1 : npQuantile [0, 1, 2, 3, 4] (1/3) = 4/3 := by
  rw [npQuantile_eq [0, 1, 2, 3, 4] (1/3) 0 [1, 2, 3, 4] (by decide) 1
      (ratFloor_eq_of _ 1 (by norm_num) (by norm_num)) 1 2 rfl rfl]
  norm_num

theorem npQuantile_5_2 : npQuantile [0, 1, 2, 3, 4] (2/3) = 8/3 := by
  rw [npQuantile_eq [0, 1, 2, 3, 4] (2/3) 0 [1, 2, 3, 4] (by decide) 2
      (ratFloor_eq_of _ 2 (by norm_num) (by norm_num)) 2 3 rfl rfl]
  norm_num

theorem npQuantile_q1 : npQuantile [0, 1, 2, 3, 4] (1/4) = 1 := by
  rw [npQuantile_eq [0, 1, 2, 3, 4] (1/4) 0 [1, 2, 3, 4] (by decide) 1
      (ratFloor_eq_of _ 1 (by norm_num) (by norm_num)) 1 2 rfl rfl]
  norm_num

theorem npQuantile_q3 : npQuantile [0, 1, 2, 3, 4] (3/4) = 3 := by
  rw [npQuantile_eq [0, 1, 2, 3, 4] (3/4) 0 [1, 2, 3, 4] (by decide) 3
      (ratFloor_eq_of _ 3 (by norm_num) (by norm_num)) 3 4 rfl rfl]
  norm_num

theorem npQuantile_2_mid : npQuantile [0, 10] (11/20) = 11/2 := by
  rw [npQuantile_eq [0, 10] (11/20) 0 [10] (by decide) 0
      (ratFloor_eq_of _ 0 (by norm_num) (by norm_num)) 0 10 rfl rfl]
  norm_num

theorem sample_times_even_example :
    sample_times_even [0, 1, 2, 3, 4] 2 1 = ([1, 3], [1/2, 1/2]) := by
  have h1 : pyRound (4/3) = 1 := pyRound_lt _ 1 (by norm_num) (by norm_num)
  have h2 : pyRound (8/3) = 3 := by
    rw [pyRound_gt (8/3) 2 (by norm_num) (by norm_num)]
    decide
  simp only [sample_times_even]
  norm_num [List.range_succ, npQuantile_5_1, npQuantile_5_2, h1, h2]

theorem sample_times_quad_example :
    sample_times_quad [0, 1, 2, 3, 4] [-1/2, 1/2] [1/2, 1/2] =
      .ok ([1, 3], [1/2, 1/2]) := by
  have h1 : pyRound (npQuantile [0, 1, 2, 3, 4] (1/4)) = 1 := by
    rw [npQuantile_q1]; exact pyRound_lt _ 1 (by norm_num) (by norm_num)
  have h3 : pyRound (npQuantile [0, 1, 2, 3, 4] (3/4)) = 3 := by
    rw [npQuantile_q3]; exact pyRound_lt _ 3 (by norm_num) (by norm_num)
  simp only [sample_times_quad]
  norm_num [h1, h3]

theorem sample_times_quad_rounds_to_six :
    sample_times_quad [0, 10] [1/10] [1] = .ok ([6], [1]) := by
  have h6 : pyRound (npQuantile [0, 10] (11/20)) = 6 := by
    rw [npQuantile_2_mid]
    have := pyRound_half (11/2) 5 (by norm_num)
    norm_num at this
    exact this
  simp only [sample_times_quad]
  norm_num [h6]

/-! ## List helpers for the sampling theorems -/

theorem sum_map_const {α : Type} (l : List α) (c : ℚ) :
    (l.map (fun _ => c)).sum = (l.length : ℚ) * c := by
  induction l with
  | nil => simp
  | cons a t ih => simp [ih]; ring

theorem sum_map_div (l : List ℚ) (s : ℚ) :
    (l.map (fun w => w / s)).sum = l.sum / s := by
  induction l with
  | nil => simp
  | cons a t ih => simp [ih]; ring

theorem map_const_replicate {α : Type} (l : List α) (c : ℚ) :
    l.map (fun _ => c) = List.replicate l.length c := by
  induction l with
  | nil => simp
  | cons a t ih => simp [ih, List.replicate]

/-- The Python slice `[1:-1]` applied to a mapped `range(n+2)` keeps the
images of `1 .. n`. -/
theorem interior_points_eq (g : ℕ → ℚ) (n : ℕ) :
    ((((List.range (n + 2)).map g).drop 1).dropLast) =
      (List.range n).map (fun j => g (j + 1)) := by
  rw [List.range_succ_eq_map]
  simp only [List.map_cons, List.drop_succ_cons, List.drop_zero]
  rw [List.map_map, List.range_succ, List.map_append]
  simp [List.dropLast_concat, Function.comp]

/-! ## Claims C5 and C6: the time-sampling policies

Claim C5 states that `sample_times_quad` rounds each quantile to the
nearest *candidate time*. The code rounds to the nearest *integer*
(`int(round(np.quantile(times, q)))`), which is generally not a candidate
time: for candidate times `[0, 10]` and node `0.1` the quantile is `5.5`
and the returned time is `6`, which is not in the candidate list (the
nearest candidate would be `10`). Claim C6 states that the fallback branch
of `sample_times_even` returns every candidate time with equal weights
summing to 1; on the empty candidate list it returns no weights, whose sum
is 0. -/

/-- Counterexample to claim C5 as stated: the sampled time `6` is not a
member of the candidate-time list `[0, 10]` at all (the nearest candidate
to the quantile `5.5` is `10`), so the code does not round to the nearest
candidate time. -/
theorem sample_times_quad_not_nearest_candidate :
    sample_times_quad [0, 10] [1/10] [1] = .ok ([6], [1])
      ∧ npQuantile [0, 10] (1/10 / 2 + 1/2) = 11/2
      ∧ (6 : ℚ) ∉ ([0, 10] : List ℚ)
      ∧ |(10 : ℚ) - 11/2| < |(0 : ℚ) - 11/2| := by
  refine ⟨sample_times_quad_rounds_to_six, ?_, ?_, ?_⟩
  · rw [show (1/10 / 2 + 1/2 : ℚ) = 11/20 by norm_num]
    exact npQuantile_2_mid
  · intro h
    simp only [List.mem_cons, List.not_mem_nil, or_false] at h
    rcases h with h | h <;> norm_num at h
  · rw [abs_of_pos (by norm_num), abs_of_neg (by norm_num)]
    norm_num

/-- Claim C5 as amended: each node is mapped to the quantile
`node/2 + 0.5` of the time list, the quantile is rounded to a *nearest
integer* (ties to even), and the input weights are returned divided by
their sum (so they sum to 1 whenever the input weights have nonzero sum);
the call raises exactly when there are more nodes than candidate times.
The hypothesis restricts nodes to `[-1, 1]` as the claim does (outside it
`np.quantile` itself raises, which the total model does not represent). -/
theorem sample_times_quad_amended (times nodes ws : List ℚ)
    (_hn : ∀ nd ∈ nodes, -1 ≤ nd ∧ nd ≤ 1) :
    ((∃ e, sample_times_quad times nodes ws = .error e) ↔
        times.length < nodes.length)
    ∧ (nodes.length ≤ times.length →
        sample_times_quad times nodes ws =
          .ok (nodes.map (fun nd => pyRound (npQuantile times (nd / 2 + 1/2))),
               ws.map (fun w => w / ws.sum)))
    ∧ (∀ nd ∈ nodes,
        |(pyRound (npQuantile times (nd / 2 + 1/2)) : ℚ)
            - npQuantile times (nd / 2 + 1/2)| ≤ 1/2)
    ∧ (ws.sum ≠ 0 → (ws.map (fun w => w / ws.sum)).sum = 1)
    ∧ sample_times_quad [0, 1, 2, 3, 4] [-1/2, 1/2] [1/2, 1/2] =
        .ok ([1, 3], [1/2, 1/2]) := by
  have hlen : (nodes.map (fun nd => nd / 2 + 1/2)).length = nodes.length :=
    List.length_map _ _
  refine ⟨?_, ?_, ?_, ?_, sample_times_quad_example⟩
  · constructor
    · rintro ⟨e, he⟩
      by_contra hc
      rw [sample_times_quad, if_neg (by rw [hlen]; exact hc)] at he
      exact Except.noConfusion he
    · intro hlt
      refine ⟨.tooManyNodes, ?_⟩
      rw [sample_times_quad, if_pos (by rw [hlen]; exact hlt)]
  · intro hle
    rw [sample_times_quad, if_neg (by rw [hlen]; exact not_lt.mpr hle)]
    rw [List.map_map]
    rfl
  · intro nd _
    exact pyRound_dist _
  · intro hs
    rw [sum_map_div, div_self hs]

/-- Counterexample to claim C6 as stated: on the empty candidate-time
list (with `n = 1`, so the fallback branch is taken) the returned weights
are empty and sum to 0, not 1. -/
theorem sample_times_even_empty_weights :
    sample_times_even ([] : List ℚ) 1 1 = ([], [])
      ∧ ([] : List ℚ).length < 1 + 2
      ∧ (sample_times_even ([] : List ℚ) 1 1).2.sum ≠ 1 := by
  refine ⟨rfl, by norm_num, ?_⟩
  rw [show sample_times_even ([] : List ℚ) 1 1 = ([], []) from rfl]
  norm_num

/-- The even-spacing rule as the specification words it (claim C6): `n`
interior quantile points of the time list, at quantiles `(j+1)/(n+1)` for
`j = 0 .. n-1`, excluding the two extremes, each rounded (the default
step is `dt = 1`, so to the nearest integer). -/
def even_interior_points (times : List ℚ) (n : ℕ) : List ℚ :=
  (List.range n).map
    (fun (j : ℕ) => (pyRound (npQuantile times (((j : ℚ) + 1) / ((n : ℚ) + 1))) : ℚ))

/-- Claim C6 as amended: with the default `dt = 1`, `sample_times_even`
returns the `n` interior quantile points (rounded to nearest integers),
each with weight `1/n`; when `n + 2` exceeds the number of candidate
times it falls back to every candidate time with equal weights, and those
weights sum to 1 whenever there is at least one candidate time (on the
empty list the weights are empty and sum to 0). The example of the claim
holds. -/
theorem sample_times_even_amended (times : List ℚ) (n : ℕ) :
    (times.length < n + 2 →
      sample_times_even times n 1 =
          (times, times.map (fun _ => 1 / (times.length : ℚ)))
        ∧ (times ≠ [] → (sample_times_even times n 1).2.sum = 1))
    ∧ (n + 2 ≤ times.length →
      (sample_times_even times n 1).1 = even_interior_points times n
        ∧ (sample_times_even times n 1).1.length = n
        ∧ (sample_times_even times n 1).2 = List.replicate n (1 / (n : ℚ))
        ∧ (0 < n → (sample_times_even times n 1).2.sum = 1))
    ∧ sample_times_even [0, 1, 2, 3, 4] 2 1 = ([1, 3], [1/2, 1/2]) := by
  refine ⟨?_, ?_, sample_times_even_example⟩
  · intro h
    constructor
    · rw [sample_times_even, if_pos h]
    · intro hne
      rw [sample_times_even, if_pos h]
      have hlen : (times.length : ℚ) ≠ 0 := by
        simp [List.length_eq_zero, hne]
      rw [sum_map_const, mul_one_div, div_self hlen]
  · intro h
    have hmain : (sample_times_even times n 1).1 = even_interior_points times n := by
      rw [sample_times_even, if_neg (not_lt.mpr h)]
      rw [interior_points_eq, List.map_map, even_interior_points]
      refine List.map_congr_left ?_
      intro j _
      simp [Function.comp]
    have hlen : (sample_times_even times n 1).1.length = n := by
      rw [hmain, even_interior_points, List.length_map, List.length_range]
    refine ⟨hmain, hlen, ?_, ?_⟩
    · have : (sample_times_even times n 1).2 =
          (sample_times_even times n 1).1.map
            (fun _ => 1 / ((sample_times_even times n 1).1.length : ℚ)) := by
        rw [sample_times_even]
      rw [this, hlen, map_const_replicate, hlen]
    · intro hn
      have : (sample_times_even times n 1).2 =
          (sample_times_even times n 1).1.map
            (fun _ => 1 / ((sample_times_even times n 1).1.length : ℚ)) := by
        rw [sample_times_even]
      rw [this, hlen, sum_map_const, hlen, mul_one_div, div_self]
      exact_mod_cast hn.ne'

/-- Witness for the amended claim C5 at a concrete input. -/
theorem sample_times_quad_amended_witness :
    sample_times_quad [0, 1, 2, 3, 4] [-1/2, 1/2] [1/2, 1/2] =
      .ok ([1, 3], [1/2, 1/2]) :=
  (sample_times_quad_amended [0, 1, 2, 3, 4] [-1/2, 1/2] [1/2, 1/2]
    (by norm_num)).2.2.2.2

/-- Witness for the amended claim C6 at a concrete input. -/
theorem sample_times_even_amended_witness :
    (sample_times_even [0, 1, 2, 3, 4] 2 1).1.length = 2 ∧
      sample_times_even [0, 1, 2, 3, 4] 2 1 = ([1, 3], [1/2, 1/2]) :=
  ⟨((sample_times_even_amended [0, 1, 2, 3, 4] 2).2.1 (by decide)).2.1,
   (sample_times_even_amended [0, 1, 2, 3, 4] 2).2.2⟩

/-! ## Dictionaries

Python dict as an association list: assignment to an existing key replaces
the value in place, assignment to a new key appends. -/

/-- Lookup in a Python-dict model. -/
def dictGet {κ β : Type} [DecidableEq κ] (k : κ) : List (κ × β) → Option β
  | [] => none
  | (k', v) :: rest => if k' = k then some v else dictGet k rest

/-- Assignment in a Python-dict model: replace in place, or append. -/
def dictInsert {κ β : Type} [DecidableEq κ] : List (κ × β) → κ → β → List (κ × β)
  | [], k, v => [(k, v)]
  | (k', v') :: rest, k, v =>
    if k' = k then (k, v) :: rest else (k', v') :: dictInsert rest k v

theorem dictInsert_idem {κ β : Type} [DecidableEq κ] (l : List (κ × β)) (k : κ) (v : β) :
    dictInsert (dictInsert l k v) k v = dictInsert l k v := by
  induction l with
  | nil => simp [dictInsert]
  | cons p rest ih =>
    by_cases h : p.1 = k
    · rw [show (p :: rest : List (κ × β)) = (p.1, p.2) :: rest from rfl]
      rw [dictInsert, if_pos h, dictInsert, if_pos rfl]
    · rw [show (p :: rest : List (κ × β)) = (p.1, p.2) :: rest from rfl]
      rw [dictInsert, if_neg h, dictInsert, if_neg h, ih]

theorem dictGet_insert_self {κ β : Type} [DecidableEq κ] (l : List (κ × β)) (k : κ) (v : β) :
    dictGet k (dictInsert l k v) = some v := by
  induction l with
  | nil => simp [dictInsert, dictGet]
  | cons p rest ih =>
    by_cases h : p.1 = k
    · rw [show (p :: rest : List (κ × β)) = (p.1, p.2) :: rest from rfl]
      rw [dictInsert, if_pos h, dictGet, if_pos rfl]
    · rw [show (p :: rest : List (κ × β)) = (p.1, p.2) :: rest from rfl]
      rw [dictInsert, if_neg h, dictGet, if_neg h, ih]

/-! ## Claims C7, C8, C9: fault domains, scenario rates

Embedding of `FaultDomain` (fmdtools/sim/sample.py, lines 92-151),
`Simulable.get_scen_rate` (fmdtools/define/block/base.py, lines 214-246)
and `FaultSample.add_single_fault_scenario` /
`FaultSample.add_joint_fault_scenario` (fmdtools/sim/sample.py, lines
411-533). -/

/-- A fault mode of a block. Modelled from the spec: the body of
`FaultMode.calc_rate` lives in `fmdtools/define/container/mode.py`, which
is not among the provided sources; per spec section 4.4 it is a
reproducible (total, deterministic) function of the base rate, the time,
the phase weighting, the simulation duration and the weight. The phasemap
and time-unit arguments are fixed per call site and folded into the
function, leaving `(time, sim_time, weight) -> rate`. -/
structure FaultModeV : Type where
  calcRate : ℚ → ℚ → ℚ → ℚ

/-- A block as seen by the sampling layer: its registry `m.faultmodes`. -/
structure FxnV : Type where
  faultmodes : List (Name × FaultModeV)

/-- A `Simulable` as seen by `get_scen_rate`: its function dictionary
(`get_fxns()`) and the simulation parameters `sp.times[0]`,
`sp.times[-1]` and `sp.dt`. -/
structure SimulableV : Type where
  fxns : List (Name × FxnV)
  t0 : ℚ
  tEnd : ℚ
  dt : ℚ

/-- Errors raised by the sampling layer. -/
inductive ScenErr : Type where
  | keyErr : Name → ScenErr
  | faultmodeNotIn : Name → Name → ScenErr
  | keyErrPair : Name × Name → ScenErr
  | maxOfEmpty : ScenErr

/-- Embedding of `Simulable.get_scen_rate`
(fmdtools/define/block/base.py, lines 214-246): resolve the function
(`KeyError` when absent), then `fm = fxn.m.faultmodes.get(faultmode,
False)`; `if not fm` raises (fault-mode records are plain objects, hence
always truthy when present); otherwise
`sim_time = sp.times[-1] - sp.times[0] + sp.dt` and the rate is
`fm.calc_rate(time, phasemap, sim_time, sim_units, weight)`. -/
def get_scen_rate (S : SimulableV) (fxnname faultmode : Name) (time weight : ℚ) :
    Except ScenErr ℚ :=
  match dictGet fxnname S.fxns with
  | none => .error (.keyErr fxnname)
  | some fxn =>
    match dictGet faultmode fxn.faultmodes with
    | none => .error (.faultmodeNotIn faultmode fxnname)
    | some fm =>
      let sim_time := S.tEnd - S.t0 + S.dt
      .ok (fm.calcRate time sim_time weight)

/-- Embedding of `FaultDomain` (fmdtools/sim/sample.py, lines 92-116):
a reference to the model and the dict of accumulated faults keyed by the
`(fxnname, faultmode)` tuple. -/
structure FaultDomainV : Type where
  mdl : SimulableV
  faults : List ((Name × Name) × FaultModeV)

/-- Embedding of `FaultDomain.add_fault` (fmdtools/sim/sample.py, lines
117-129): `self.faults[(fxnname, faultmode)] =
self.fxns[fxnname].m.faultmodes[faultmode]`; each subscript raises
`KeyError` when the key is absent, in which case nothing is added. -/
def add_fault (fd : FaultDomainV) (fxnname faultmode : Name) :
    Except ScenErr FaultDomainV :=
  match dictGet fxnname fd.mdl.fxns with
  | none => .error (.keyErr fxnname)
  | some fxn =>
    match dictGet faultmode fxn.faultmodes with
    | none => .error (.keyErr faultmode)
    | some fm =>
      .ok { fd with faults := dictInsert fd.faults (fxnname, faultmode) fm }

/-- Embedding of `FaultDomain.add_faults` (fmdtools/sim/sample.py, lines
131-151): `add_fault` in order, stopping at the first error. -/
def add_faults (fd : FaultDomainV) : List (Name × Name) → Except ScenErr FaultDomainV
  | [] => .ok fd
  | ft :: rest => do
    let fd' ← add_fault fd ft.1 ft.2
    add_faults fd' rest

/-- A fault injection payload `{fxnname: [modes]}`. -/
structure InjectionV : Type where
  faults : List (Name × List Name)

/-- A scenario as far as the rate-law claims are concerned: its sequence,
rate and time. (The scenario name built by `create_scenname` is a string
format of the same data and carries no extra information.) -/
structure ScenarioV : Type where
  sequence : List (ℚ × InjectionV)
  rate : ℚ
  time : ℚ

/-- Embedding of `FaultSample` (fmdtools/sim/sample.py, lines 370-409):
the fault domain, the accumulated scenarios and the set of sample times.
The phasemap is fixed per sample and folded into `calcRate` (the `phase`
field of a scenario is derived metadata not consulted by any claim). -/
structure FaultSampleV : Type where
  faultdomain : FaultDomainV
  scenarios : List ScenarioV
  times : List ℚ

/-- The `self._times.add(time)` step (a Python set add). -/
def addTime (ts : List ℚ) (t : ℚ) : List ℚ :=
  if t ∈ ts then ts else ts ++ [t]

/-- Embedding of `FaultSample.add_single_fault_scenario`
(fmdtools/sim/sample.py, lines 411-455): rate from
`mdl.get_scen_rate(faulttup[0], faulttup[1], time, phasemap, weight)`,
sequence `{time: Injection(faults={fxn: [mode]})}`. -/
def add_single_fault_scenario (fs : FaultSampleV) (ft : Name × Name)
    (time weight : ℚ) : Except ScenErr FaultSampleV :=
  match get_scen_rate fs.faultdomain.mdl ft.1 ft.2 time weight with
  | .error e => .error e
  | .ok rate =>
    .ok { fs with
          times := addTime fs.times time,
          scenarios := fs.scenarios ++
            [{ sequence := [(time, ⟨[(ft.1, [ft.2])]⟩)], rate := rate,
               time := time }] }

/-- The `baserate` argument of `add_joint_fault_scenario`: independent
product, maximum, or the rate of one designated fault. -/
inductive BaserateV : Type where
  | ind : BaserateV
  | maxr : BaserateV
  | base : Name × Name → BaserateV

/-- The rates dict loop of `add_joint_fault_scenario`:
`rates[faulttup] = get_scen_rate(*faulttup, time, phasemap, weight)`. -/
def joint_rates (S : SimulableV) (time weight : ℚ) :
    List (Name × Name) → List ((Name × Name) × ℚ) →
      Except ScenErr (List ((Name × Name) × ℚ))
  | [], acc => .ok acc
  | ft :: rest, acc =>
    match get_scen_rate S ft.1 ft.2 time weight with
    | .error e => .error e
    | .ok r => joint_rates S time weight rest (dictInsert acc ft r)

/-- The rate combination of `add_joint_fault_scenario`: `np.prod` of the
dict values for `'ind'`, `np.max` for `'max'` (raising on an empty list),
or the rate stored for the designated fault tuple (a `KeyError` when that
tuple was not sampled); the result is multiplied by `p_cond`. -/
def combine_rate (br : BaserateV) (p_cond : ℚ)
    (rates : List ((Name × Name) × ℚ)) : Except ScenErr ℚ :=
  match br with
  | .ind => .ok ((rates.map (fun p => p.2)).foldl (· * ·) 1 * p_cond)
  | .maxr =>
    match (rates.map (fun p => p.2)).max? with
    | none => .error .maxOfEmpty
    | some m => .ok (m * p_cond)
  | .base ft =>
    match dictGet ft rates with
    | none => .error (.keyErrPair ft)
    | some r => .ok (r * p_cond)

/-- The faults-dict construction of `add_joint_fault_scenario`: group the
mode names by function name, preserving order. -/
def joint_faults_dict : List (Name × Name) → List (Name × List Name) →
    List (Name × List Name)
  | [], acc => acc
  | ft :: rest, acc =>
    match dictGet ft.1 acc with
    | none => joint_faults_dict rest (acc ++ [(ft.1, [ft.2])])
    | some ms => joint_faults_dict rest (dictInsert acc ft.1 (ms ++ [ft.2]))

/-- Embedding of `FaultSample.add_joint_fault_scenario`
(fmdtools/sim/sample.py, lines 457-533). -/
def add_joint_fault_scenario (fs : FaultSampleV) (fts : List (Name × Name))
    (time weight : ℚ) (baserate : BaserateV) (p_cond : ℚ) :
    Except ScenErr FaultSampleV :=
  match joint_rates fs.faultdomain.mdl time weight fts [] with
  | .error e => .error e
  | .ok rates =>
    match combine_rate baserate p_cond rates with
    | .error e => .error e
    | .ok rate =>
      .ok { fs with
            times := addTime fs.times time,
            scenarios := fs.scenarios ++
              [{ sequence := [(time, ⟨joint_faults_dict fts []⟩)],
                 rate := rate, time := time }] }

/-- Claim C7: for two distinct faults `A` and `B` of the domain sampled
at the same time with the same weight (and the phasemap folded into the
model), the joint scenario built with `baserate = ind` and the default
`p_cond = 1` has rate `rA * rB`, the product of the rates of the two
single-fault scenarios. -/
theorem joint_rate_independence (fs : FaultSampleV) (A B : Name × Name)
    (t w : ℚ) (hAB : A ≠ B) (rA rB : ℚ)
    (hA : get_scen_rate fs.faultdomain.mdl A.1 A.2 t w = .ok rA)
    (hB : get_scen_rate fs.faultdomain.mdl B.1 B.2 t w = .ok rB) :
    ∃ fsJ fsA fsB : FaultSampleV,
      add_joint_fault_scenario fs [A, B] t w .ind 1 = .ok fsJ
      ∧ add_single_fault_scenario fs A t w = .ok fsA
      ∧ add_single_fault_scenario fs B t w = .ok fsB
      ∧ fsJ.scenarios.getLast? =
          some ⟨[(t, ⟨joint_faults_dict [A, B] []⟩)], rA * rB, t⟩
      ∧ fsA.scenarios.getLast? = some ⟨[(t, ⟨[(A.1, [A.2])]⟩)], rA, t⟩
      ∧ fsB.scenarios.getLast? = some ⟨[(t, ⟨[(B.1, [B.2])]⟩)], rB, t⟩ := by
  have h2 : dictInsert [(A, rA)] B rB = [(A, rA), (B, rB)] := by
    rw [dictInsert, if_neg hAB]
    rfl
  have hjr : joint_rates fs.faultdomain.mdl t w [A, B] [] =
      .ok [(A, rA), (B, rB)] := by
    simp only [joint_rates, hA, hB]
    rw [show dictInsert ([] : List ((Name × Name) × ℚ)) A rA = [(A, rA)] from rfl]
    rw [h2]
  have hcomb : combine_rate .ind 1 [(A, rA), (B, rB)] = .ok (rA * rB) := by
    simp only [combine_rate, List.map, List.foldl]
    rw [one_mul, mul_one]
  have hjoint : add_joint_fault_scenario fs [A, B] t w .ind 1 =
      .ok { fs with
            times := addTime fs.times t,
            scenarios := fs.scenarios ++
              [⟨[(t, ⟨joint_faults_dict [A, B] []⟩)], rA * rB, t⟩] } := by
    simp only [add_joint_fault_scenario, hjr, hcomb]
  have hsA : add_single_fault_scenario fs A t w =
      .ok { fs with
            times := addTime fs.times t,
            scenarios := fs.scenarios ++ [⟨[(t, ⟨[(A.1, [A.2])]⟩)], rA, t⟩] } := by
    simp only [add_single_fault_scenario, hA]
  have hsB : add_single_fault_scenario fs B t w =
      .ok { fs with
            times := addTime fs.times t,
            scenarios := fs.scenarios ++ [⟨[(t, ⟨[(B.1, [B.2])]⟩)], rB, t⟩] } := by
    simp only [add_single_fault_scenario, hB]
  refine ⟨_, _, _, hjoint, hsA, hsB, ?_, ?_, ?_⟩ <;> exact List.getLast?_concat _

/-- Witness for claim C7 at a concrete model with two fault modes of
rates 2 and 3. -/
theorem joint_rate_independence_witness :
    ∃ fsJ fsA fsB : FaultSampleV,
      add_joint_fault_scenario
          ⟨⟨⟨[(0, ⟨[(0, ⟨fun _ _ _ => 2⟩), (1, ⟨fun _ _ _ => 3⟩)]⟩)], 0, 10, 1⟩, []⟩,
           [], []⟩ [(0, 0), (0, 1)] 5 1 .ind 1 = .ok fsJ
      ∧ add_single_fault_scenario
          ⟨⟨⟨[(0, ⟨[(0, ⟨fun _ _ _ => 2⟩), (1, ⟨fun _ _ _ => 3⟩)]⟩)], 0, 10, 1⟩, []⟩,
           [], []⟩ (0, 0) 5 1 = .ok fsA
      ∧ add_single_fault_scenario
          ⟨⟨⟨[(0, ⟨[(0, ⟨fun _ _ _ => 2⟩), (1, ⟨fun _ _ _ => 3⟩)]⟩)], 0, 10, 1⟩, []⟩,
           [], []⟩ (0, 1) 5 1 = .ok fsB
      ∧ fsJ.scenarios.getLast? =
          some ⟨[(5, ⟨joint_faults_dict [(0, 0), (0, 1)] []⟩)], 2 * 3, 5⟩
      ∧ fsA.scenarios.getLast? = some ⟨[(5, ⟨[(0, [0])]⟩)], 2, 5⟩
      ∧ fsB.scenarios.getLast? = some ⟨[(5, ⟨[(0, [1])]⟩)], 3, 5⟩ :=
  joint_rate_independence _ (0, 0) (0, 1) 5 1 (by decide) 2 3 rfl rfl

/-- Claim C8: requesting a fault-mode name that is not a key of the
resolved block's `m.faultmodes` is fatal and never silently skipped:
`get_scen_rate` raises exactly when the mode is absent, and
`FaultDomain.add_fault` raises (adding nothing) exactly when the mode is
absent; when the mode is present both succeed. -/
theorem unknown_faultmode_fatal (fd : FaultDomainV) (f m : Name) (t w : ℚ)
    (fxn : FxnV) (hf : dictGet f fd.mdl.fxns = some fxn) :
    ((∃ e, get_scen_rate fd.mdl f m t w = .error e) ↔
        dictGet m fxn.faultmodes = none)
    ∧ ((∃ e, add_fault fd f m = .error e) ↔ dictGet m fxn.faultmodes = none)
    ∧ (dictGet m fxn.faultmodes = none → add_fault fd f m = .error (.keyErr m))
    ∧ (∀ fm, dictGet m fxn.faultmodes = some fm →
        get_scen_rate fd.mdl f m t w =
            .ok (fm.calcRate t (fd.mdl.tEnd - fd.mdl.t0 + fd.mdl.dt) w)
          ∧ add_fault fd f m =
              .ok { fd with faults := dictInsert fd.faults (f, m) fm }) := by
  cases hm : dictGet m fxn.faultmodes with
  | none =>
    refine ⟨⟨fun _ => rfl, fun _ => ?_⟩, ⟨fun _ => rfl, fun _ => ?_⟩, fun _ => ?_, ?_⟩
    · exact ⟨.faultmodeNotIn m f, by simp only [get_scen_rate, hf, hm]⟩
    · exact ⟨.keyErr m, by simp only [add_fault, hf, hm]⟩
    · simp only [add_fault, hf, hm]
    · intro fm hfm
      exact Option.noConfusion hfm
  | some fm =>
    have hr : get_scen_rate fd.mdl f m t w =
        .ok (fm.calcRate t (fd.mdl.tEnd - fd.mdl.t0 + fd.mdl.dt) w) := by
      simp only [get_scen_rate, hf, hm]
    have ha : add_fault fd f m =
        .ok { fd with faults := dictInsert fd.faults (f, m) fm } := by
      simp only [add_fault, hf, hm]
    refine ⟨⟨?_, fun hc => Option.noConfusion hc⟩,
            ⟨?_, fun hc => Option.noConfusion hc⟩,
            fun hc => Option.noConfusion hc, ?_⟩
    · rintro ⟨e, he⟩
      rw [hr] at he
      exact Except.noConfusion he
    · rintro ⟨e, he⟩
      rw [ha] at he
      exact Except.noConfusion he
    · intro fm' hfm'
      cases hfm'
      exact ⟨hr, ha⟩

/-- Witness for claim C8 at a concrete model: mode 5 is absent, mode 0 is
present. -/
theorem unknown_faultmode_fatal_witness :
    (∃ e, add_fault ⟨⟨[(0, ⟨[(0, ⟨fun _ _ _ => 2⟩)]⟩)], 0, 10, 1⟩, []⟩ 0 5 =
        .error e)
    ∧ (∃ e, get_scen_rate ⟨[(0, ⟨[(0, ⟨fun _ _ _ => 2⟩)]⟩)], 0, 10, 1⟩ 0 5 0 1 =
        .error e) :=
  ⟨(unknown_faultmode_fatal ⟨⟨[(0, ⟨[(0, ⟨fun _ _ _ => 2⟩)]⟩)], 0, 10, 1⟩, []⟩
      0 5 0 1 ⟨[(0, ⟨fun _ _ _ => 2⟩)]⟩ rfl).2.1.mpr rfl,
   (unknown_faultmode_fatal ⟨⟨[(0, ⟨[(0, ⟨fun _ _ _ => 2⟩)]⟩)], 0, 10, 1⟩, []⟩
      0 5 0 1 ⟨[(0, ⟨fun _ _ _ => 2⟩)]⟩ rfl).1.mpr rfl⟩

/-- Claim C9: `FaultDomain` accumulation is idempotent and keyed by the
`(block, mode)` tuple: adding the same fault twice leaves the domain
exactly as adding it once. -/
theorem add_fault_idempotent (fd : FaultDomainV) (f m : Name)
    (fd' : FaultDomainV) (h : add_fault fd f m = .ok fd') :
    add_fault fd' f m = .ok fd' := by
  cases hf : dictGet f fd.mdl.fxns with
  | none =>
    simp only [add_fault, hf] at h
    exact Except.noConfusion h
  | some fxn =>
    cases hm : dictGet m fxn.faultmodes with
    | none =>
      simp only [add_fault, hf, hm] at h
      exact Except.noConfusion h
    | some fm =>
      simp only [add_fault, hf, hm, Except.ok.injEq] at h
      subst h
      simp only [add_fault, hf, hm, dictInsert_idem]

/-! ## The propagation engine (claims C1, C2, C3, C4, C10)

Embedding of `Model.propagate` (fmdtools/define/model.py, lines 603-633)
and `Model.prop_static` (lines 634-680).

A model-specific behaviour (`fxn('static', time=t)` or
`fxn('dynamic', faults=..., time=t)`, dispatched by the `FxnBlock`
`__call__`) mutates the block's own containers and its connected flows;
the engine only observes states through `return_mutables()` tuples and
`!=` comparisons. The engine is therefore embedded generically over the
behaviours: a model carries, for each function name, a state transformer
for its static step and one (taking the injected fault list) for its
dynamic step. Locality of a behaviour (it reads and writes only its own
block state and its own flows) is the well-formedness predicate `Wf`
below, matching how block behaviours access state in the source.

Two deliberate modelling choices, noted for review:
* `nextfxns` and `flows_to_check` are Python `set`s whose iteration order
  is arbitrary; the set-typed steps of the loop body (flagging flows,
  adding bipartite neighbours) are order-independent, so they are
  embedded as `Finset` operations, and the per-pass visiting order of
  `activefxns` is fixed to the `staticfxns` order (the spec itself
  mandates a stable order and calls the original order unspecified).
* `set_vars` (phase 0, disturbances) is an arbitrary state override and
  is passed in as a state transformer `dist`. -/

/-- The mutable state of the whole model: the `return_mutables()` tuple
of every function (type `V`) and of every flow (type `W`). -/
structure PState (V W : Type) : Type where
  fxnState : Name → V
  flowState : Name → W

/-- The static structure of a built `Model`: the function dict, the
ordered sets `staticfxns` and `dynamicfxns`, the list `staticflows`, the
bipartite adjacency (`fxnFlows f` lists the flows of function `f`, in the
order of the `fxn.flows` dict -- the bipartite graph edges are exactly
`(f, L)` for `L` in `fxnFlows f`), and the behaviours. -/
structure Mdl (V W : Type) : Type where
  fxns : List Name
  staticfxns : List Name
  dynamicfxns : List Name
  staticflows : List Name
  fxnFlows : Name → List Name
  stepFxn : Name → ℚ → PState V W → PState V W
  stepDyn : Name → ℚ → List Name → PState V W → PState V W

variable {V W : Type}

/-- `[n for n in self.bipartite.neighbors(flowname) if n in self.staticfxns]`:
the static functions adjacent to a flow. -/
def staticOwners (M : Mdl V W) (L : Name) : Finset Name :=
  (M.staticfxns.filter (fun f => L ∈ M.fxnFlows f)).toFinset

/-- The flow check after one function visit in `prop_static`: for each
flow of the visited function still in `flows_to_check`, if its mutables
differ from the recorded value, add its static neighbours to `nextfxns`
and remove it from `flows_to_check`. (Each check depends only on the
fixed recorded dict and the current state, so the Python iteration order
is immaterial and the step is a set operation.) -/
def checkFxnFlows [DecidableEq W] (M : Mdl V W) (rec : Name → W)
    (s' : PState V W) (f : Name) (nx tc : Finset Name) :
    Finset Name × Finset Name :=
  let flagged := ((M.fxnFlows f).toFinset ∩ tc).filter
    (fun L => rec L ≠ s'.flowState L)
  (nx ∪ flagged.biUnion (fun L => staticOwners M L), tc \ flagged)

/-- The inner loop of one pass of `prop_static`: visit each active
function in order; invoke its static behaviour; if its own mutables
changed, add it to `nextfxns`; then check its flows. -/
def visitLoop [DecidableEq V] [DecidableEq W] (M : Mdl V W) (t : ℚ)
    (rec : Name → W) :
    List Name → PState V W → Finset Name → Finset Name →
      PState V W × Finset Name × Finset Name
  | [], s, nx, tc => (s, nx, tc)
  | f :: rest, s, nx, tc =>
    let s' := M.stepFxn f t s
    let nx1 := if s.fxnState f ≠ s'.fxnState f then insert f nx else nx
    let p := checkFxnFlows M rec s' f nx1 tc
    visitLoop M t rec rest s' p.1 p.2

/-- One full pass of the `while activefxns` loop: the visits, then the
sweep over the flows never flagged during the pass. Returns the state
after the pass and the computed `nextfxns`. -/
def runPass [DecidableEq V] [DecidableEq W] (M : Mdl V W) (t : ℚ)
    (rec : Name → W) (s : PState V W) (active : List Name) :
    PState V W × Finset Name :=
  let r := visitLoop M t rec active s ∅ M.staticflows.toFinset
  (r.1, r.2.1 ∪ (r.2.2.filter (fun L => rec L ≠ r.1.flowState L)).biUnion
    (fun L => staticOwners M L))

/-- A behaviour invocation observed during `Model.propagate`: a dynamic
call carries the injected fault list (`fxn('dynamic', faults=...,
time=t)`); a static call carries none (`fxn('static', time=t)`). -/
inductive Call : Type where
  | dyn : Name → List Name → Call
  | stat : Name → Call
deriving DecidableEq

/-- Errors raised by the engine. `staticWrap` is the exception raised by
the `except` clause of `Model.propagate`, whose message carries only the
time; the original exception remains attached as the implicit exception
context (Python chains it automatically when raising inside an `except`
block). -/
inductive PropErr : Type where
  | keyError : Name → PropErr
  | staticLoop : ℚ → List Name → PropErr
  | staticWrap : ℚ → PropErr → PropErr

/-- The `while activefxns` loop of `prop_static` with the pass counter
modelled as a countdown budget: the Python counter `n` starts at 0 and
the loop raises when `n > 1000` after a pass, i.e. after pass 1001, so
the budget starts at 1000 and the error fires after the pass run at
budget 0. The recorded dict `_flowstates` is refreshed for every static
flow at the end of each pass. Also returns the trace of static calls. -/
def propStaticAux [DecidableEq V] [DecidableEq W] (M : Mdl V W) (t : ℚ) :
    ℕ → List Name → PState V W → (Name → W) →
      Except PropErr (PState V W × (Name → W)) × List Call
  | b, active, s, rec =>
    if active.isEmpty then (.ok (s, rec), [])
    else
      let pr := runPass M t rec s active
      let rec' := fun L => if L ∈ M.staticflows then pr.1.flowState L else rec L
      let active' := M.staticfxns.filter (fun f => f ∈ pr.2)
      let tr := active.map Call.stat
      match b with
      | 0 => (.error (.staticLoop t active'), tr)
      | b' + 1 =>
        let r := propStaticAux M t b' active' pr.1 rec'
        (r.1, tr ++ r.2)

/-- The initial `_flowstates` record: the persistent dict when present,
else (first call) the current flow mutables. -/
def recInit (fs : Option (Name → W)) (s : PState V W) : Name → W :=
  match fs with
  | none => fun L => s.flowState L
  | some r => r

/-- Embedding of `Model.prop_static` (fmdtools/define/model.py, lines
634-680): `activefxns` starts as the whole of `staticfxns`; the
persistent `self._flowstates` dict (`fs`) is initialised from the current
flow mutables when absent. -/
def prop_static [DecidableEq V] [DecidableEq W] (M : Mdl V W) (t : ℚ)
    (s : PState V W) (fs : Option (Name → W)) :
    Except PropErr (PState V W × (Name → W)) × List Call :=
  propStaticAux M t 1000 M.staticfxns s (recInit fs s)

/-- `fxnfaults.get(fxnname, [])`. -/
def lookupFaults (ff : List (Name × List Name)) (f : Name) : List Name :=
  (dictGet f ff).getD []

/-- `self.dynamicfxns.union(fxnfaults.keys())`: an `OrderedSet` union,
i.e. the dynamic functions in their fixed order followed by the fault
dict keys not already among them, in dict order. -/
def dynUnionList (M : Mdl V W) (ff : List (Name × List Name)) : List Name :=
  M.dynamicfxns ++ (ff.map Prod.fst).filter (fun f => f ∉ M.dynamicfxns)

/-- The phase-1 loop of `Model.propagate`: each function of the union is
fetched from `self.fxns` (a `KeyError` when absent) and invoked once with
mode `dynamic`, its scheduled faults and the time. Also returns the trace
of dynamic calls made (the calls made before a `KeyError` remain in the
trace). -/
def dynLoop (M : Mdl V W) (t : ℚ) (ff : List (Name × List Name)) :
    List Name → PState V W → Except PropErr (PState V W) × List Call
  | [], s => (.ok s, [])
  | f :: rest, s =>
    if f ∈ M.fxns then
      let s' := M.stepDyn f t (lookupFaults ff f) s
      let r := dynLoop M t ff rest s'
      (r.1, .dyn f (lookupFaults ff f) :: r.2)
    else (.error (.keyError f), [])

/-- The state after the whole dynamic phase (used to state theorems). -/
def dynPhaseState (M : Mdl V W) (t : ℚ) (ff : List (Name × List Name))
    (s0 : PState V W) : PState V W :=
  (dynUnionList M ff).foldl (fun st f => M.stepDyn f t (lookupFaults ff f) st) s0

/-- Embedding of `Model.propagate` (fmdtools/define/model.py, lines
603-633): apply the disturbances, run the dynamic pass over the union of
`dynamicfxns` and the fault-dict keys, then run `prop_static`, re-raising
any of its errors as the time-stamped wrapper exception (with the
original attached as context). Returns the result and the full call
trace. -/
def propagate [DecidableEq V] [DecidableEq W] (M : Mdl V W) (t : ℚ)
    (ff : List (Name × List Name)) (dist : PState V W → PState V W)
    (s : PState V W) (fs : Option (Name → W)) :
    Except PropErr (PState V W × (Name → W)) × List Call :=
  let s0 := dist s
  let d := dynLoop M t ff (dynUnionList M ff) s0
  match d.1 with
  | .error e => (.error e, d.2)
  | .ok s1 =>
    let st := prop_static M t s1 fs
    match st.1 with
    | .error e => (.error (.staticWrap t e), d.2 ++ st.2)
    | .ok p => (.ok p, d.2 ++ st.2)

/-- Well-formedness of a built model, as guaranteed by `Model.build`
(fmdtools/define/model.py, lines 208-226) and by how block behaviours
access state: `staticfxns` is an `OrderedSet` (no duplicates); every
flow of a static function is a static flow (by construction
`staticflows` is exactly the flows with at least one static neighbour);
a static behaviour writes only its own block state and its own flows and
reads only those. -/
structure Wf (M : Mdl V W) : Prop where
  static_nodup : M.staticfxns.Nodup
  static_flows : ∀ f ∈ M.staticfxns, ∀ L ∈ M.fxnFlows f, L ∈ M.staticflows
  frame_fxn : ∀ f t s g, g ≠ f → (M.stepFxn f t s).fxnState g = s.fxnState g
  frame_flow : ∀ f t s L, L ∉ M.fxnFlows f →
    (M.stepFxn f t s).flowState L = s.flowState L
  reads_local : ∀ f t s s', s.fxnState f = s'.fxnState f →
    (∀ L ∈ M.fxnFlows f, s.flowState L = s'.flowState L) →
    (M.stepFxn f t s).fxnState f = (M.stepFxn f t s').fxnState f ∧
      ∀ L ∈ M.fxnFlows f, (M.stepFxn f t s).flowState L =
        (M.stepFxn f t s').flowState L

/-- The recorded `_flowstates` dict agrees with the current flow values
on the static flows (true at the start of every pass of an initialised
run). -/
def Coherent (M : Mdl V W) (rec : Name → W) (s : PState V W) : Prop :=
  ∀ L ∈ M.staticflows, rec L = s.flowState L

/-- The state reached after the first `i` visits of a pass over
`active`. -/
def stateAfter (M : Mdl V W) (t : ℚ) (s : PState V W) (active : List Name)
    (i : ℕ) : PState V W :=
  (active.take i).foldl (fun st f => M.stepFxn f t st) s

/-- Witness for claim C9 at a concrete domain. -/
theorem add_fault_idempotent_witness :
    add_fault ⟨⟨[(0, ⟨[(0, ⟨fun _ _ _ => 2⟩)]⟩)], 0, 10, 1⟩,
        [((0, 0), ⟨fun _ _ _ => 2⟩)]⟩ 0 0 =
      .ok ⟨⟨[(0, ⟨[(0, ⟨fun _ _ _ => 2⟩)]⟩)], 0, 10, 1⟩,
        [((0, 0), ⟨fun _ _ _ => 2⟩)]⟩ :=
  add_fault_idempotent ⟨⟨[(0, ⟨[(0, ⟨fun _ _ _ => 2⟩)]⟩)], 0, 10, 1⟩, []⟩ 0 0
    _ rfl

/-! ### Characterising one pass of the static fixed-point loop -/

/-- A flow is flagged at a checkpoint during the visits over `l` from
state `s`: some visited owner of the flow leaves it (right after its own
invocation, which is when the code checks it) different from the recorded
value. -/
def ckFlag [DecidableEq W] (M : Mdl V W) (t : ℚ) (rec : Name → W) :
    List Name → PState V W → Name → Prop
  | [], _, _ => False
  | f :: rest, s, L =>
    (L ∈ M.fxnFlows f ∧ rec L ≠ (M.stepFxn f t s).flowState L)
      ∨ ckFlag M t rec rest (M.stepFxn f t s) L

instance ckFlagDec [DecidableEq W] (M : Mdl V W) (t : ℚ) (rec : Name → W) :
    ∀ (l : List Name) (s : PState V W) (L : Name),
      Decidable (ckFlag M t rec l s L)
  | [], _, _ => .isFalse (fun h => h)
  | f :: rest, s, L =>
    have : Decidable (ckFlag M t rec rest (M.stepFxn f t s) L) :=
      ckFlagDec M t rec rest (M.stepFxn f t s) L
    by unfold ckFlag; exact inferInstance

/-- The visited functions whose own mutables tuple changed across their
invocation during the pass over `l` from state `s`. -/
def vChanged [DecidableEq V] [DecidableEq W] (M : Mdl V W) (t : ℚ) :
    List Name → PState V W → Finset Name
  | [], _ => ∅
  | f :: rest, s =>
    (if s.fxnState f ≠ (M.stepFxn f t s).fxnState f then {f} else ∅)
      ∪ vChanged M t rest (M.stepFxn f t s)

theorem vChanged_subset [DecidableEq V] [DecidableEq W] (M : Mdl V W) (t : ℚ) :
    ∀ (l : List Name) (s : PState V W) (f : Name),
      f ∈ vChanged M t l s → f ∈ l := by
  intro l
  induction l with
  | nil => intro s f h; exact absurd h (Finset.not_mem_empty f)
  | cons g rest ih =>
    intro s f h
    rw [vChanged, Finset.mem_union] at h
    rcases h with h | h
    · rcases em (s.fxnState g ≠ (M.stepFxn g t s).fxnState g) with hc | hc
      · rw [if_pos hc, Finset.mem_singleton] at h
        exact h ▸ List.mem_cons_self g rest
      · rw [if_neg hc] at h
        exact absurd h (Finset.not_mem_empty f)
    · exact List.mem_cons_of_mem g (ih _ f h)

theorem vChanged_append [DecidableEq V] [DecidableEq W] (M : Mdl V W) (t : ℚ) :
    ∀ (a b : List Name) (s : PState V W),
      vChanged M t (a ++ b) s =
        vChanged M t a s ∪ vChanged M t b (a.foldl (fun st f => M.stepFxn f t st) s) := by
  intro a
  induction a with
  | nil => intro b s; simp [vChanged]
  | cons f rest ih =>
    intro b s
    rw [List.cons_append, vChanged, vChanged, ih, List.foldl_cons, Finset.union_assoc]

theorem biUnion_union_split {x y : Finset Name} {O : Name → Finset Name} :
    (x ∪ y).biUnion O = x.biUnion O ∪ y.biUnion O := by
  ext a
  simp only [Finset.mem_biUnion, Finset.mem_union]
  constructor
  · rintro ⟨w, (hw | hw), ha⟩
    · exact Or.inl ⟨w, hw, ha⟩
    · exact Or.inr ⟨w, hw, ha⟩
  · rintro (⟨w, hw, ha⟩ | ⟨w, hw, ha⟩)
    · exact ⟨w, Or.inl hw, ha⟩
    · exact ⟨w, Or.inr hw, ha⟩

/-- The inner loop `visitLoop`, characterised: the final state is the
fold of the static steps over the visited list; the remaining
`flows_to_check` are those never flagged; `nextfxns` collects the
functions whose own state changed and the static neighbours of every
flagged flow. -/
theorem visitLoop_spec [DecidableEq V] [DecidableEq W] (M : Mdl V W)
    (t : ℚ) (rec : Name → W) :
    ∀ (active : List Name) (s : PState V W) (nx tc : Finset Name),
      (visitLoop M t rec active s nx tc).1 =
        active.foldl (fun st f => M.stepFxn f t st) s
      ∧ (visitLoop M t rec active s nx tc).2.2 =
          tc \ tc.filter (fun L => ckFlag M t rec active s L)
      ∧ (visitLoop M t rec active s nx tc).2.1 =
          (nx ∪ vChanged M t active s) ∪
            (tc.filter (fun L => ckFlag M t rec active s L)).biUnion
              (fun L => staticOwners M L) := by
  intro active
  induction active with
  | nil =>
    intro s nx tc
    refine ⟨rfl, ?_, ?_⟩
    · simp [visitLoop, ckFlag]
    · simp [visitLoop, ckFlag, vChanged]
  | cons f rest ih =>
    intro s nx tc
    set s' := M.stepFxn f t s with hs'
    set hd : Finset Name :=
      ((M.fxnFlows f).toFinset ∩ tc).filter (fun L => rec L ≠ s'.flowState L)
      with hhd
    have hvl : visitLoop M t rec (f :: rest) s nx tc =
        visitLoop M t rec rest s'
          ((if s.fxnState f ≠ s'.fxnState f then insert f nx else nx)
            ∪ hd.biUnion (fun L => staticOwners M L))
          (tc \ hd) := by
      rw [visitLoop]
      rfl
    obtain ⟨ih1, ih2, ih3⟩ := ih s'
      ((if s.fxnState f ≠ s'.fxnState f then insert f nx else nx)
        ∪ hd.biUnion (fun L => staticOwners M L)) (tc \ hd)
    refine ⟨?_, ?_, ?_⟩
    · rw [hvl, ih1, List.foldl_cons]
    · rw [hvl, ih2]
      ext L
      simp only [Finset.mem_sdiff, Finset.mem_filter, Finset.mem_inter,
        List.mem_toFinset, hhd, ckFlag, ← hs']
      tauto
    · rw [hvl, ih3]
      have hA : hd = tc.filter
          (fun L => L ∈ M.fxnFlows f ∧ rec L ≠ s'.flowState L) := by
        rw [hhd]
        ext L
        simp only [Finset.mem_filter, Finset.mem_inter, List.mem_toFinset]
        tauto
      have hB : hd ∪ tc.filter (fun L => ckFlag M t rec rest s' L) =
          hd ∪ (tc \ hd).filter (fun L => ckFlag M t rec rest s' L) := by
        ext L
        simp only [Finset.mem_union, Finset.mem_filter, Finset.mem_sdiff, hA]
        tauto
      have hC : tc.filter (fun L => ckFlag M t rec (f :: rest) s L) =
          hd ∪ (tc \ hd).filter (fun L => ckFlag M t rec rest s' L) := by
        have hpred : tc.filter (fun L => ckFlag M t rec (f :: rest) s L) =
            tc.filter (fun L => (L ∈ M.fxnFlows f ∧ rec L ≠ s'.flowState L)
              ∨ ckFlag M t rec rest s' L) :=
          Finset.filter_congr (fun L _ => Iff.rfl)
        rw [hpred, Finset.filter_or, ← hA, hB]
      rw [hC, biUnion_union_split]
      rw [show vChanged M t (f :: rest) s =
            (if s.fxnState f ≠ s'.fxnState f then {f} else ∅)
              ∪ vChanged M t rest s' from rfl]
      by_cases hc : s.fxnState f ≠ s'.fxnState f
      · rw [if_pos hc, if_pos hc]
        ext g
        simp only [Finset.mem_union, Finset.mem_insert, Finset.mem_singleton]
        tauto
      · rw [if_neg hc, if_neg hc]
        ext g
        simp only [Finset.mem_union, Finset.not_mem_empty]
        tauto

theorem runPass_fst [DecidableEq V] [DecidableEq W] (M : Mdl V W) (t : ℚ)
    (rec : Name → W) (s : PState V W) (active : List Name) :
    (runPass M t rec s active).1 =
      active.foldl (fun st f => M.stepFxn f t st) s :=
  (visitLoop_spec M t rec active s ∅ M.staticflows.toFinset).1

theorem runPass_snd [DecidableEq V] [DecidableEq W] (M : Mdl V W) (t : ℚ)
    (rec : Name → W) (s : PState V W) (active : List Name) :
    (runPass M t rec s active).2 =
      vChanged M t active s ∪
        (M.staticflows.toFinset.filter
          (fun L => ckFlag M t rec active s L
            ∨ rec L ≠ (active.foldl (fun st f => M.stepFxn f t st) s).flowState L)).biUnion
          (fun L => staticOwners M L) := by
  obtain ⟨h1, h2, h3⟩ := visitLoop_spec M t rec active s ∅ M.staticflows.toFinset
  show (visitLoop M t rec active s ∅ M.staticflows.toFinset).2.1 ∪
      (((visitLoop M t rec active s ∅ M.staticflows.toFinset).2.2).filter
        (fun L => rec L ≠
          (visitLoop M t rec active s ∅ M.staticflows.toFinset).1.flowState L)).biUnion
      (fun L => staticOwners M L) = _
  rw [h1, h2, h3]
  have hsplit : M.staticflows.toFinset.filter
      (fun L => ckFlag M t rec active s L
        ∨ rec L ≠ (active.foldl (fun st f => M.stepFxn f t st) s).flowState L) =
      M.staticflows.toFinset.filter (fun L => ckFlag M t rec active s L)
        ∪ (M.staticflows.toFinset \
            M.staticflows.toFinset.filter (fun L => ckFlag M t rec active s L)).filter
          (fun L => rec L ≠ (active.foldl (fun st f => M.stepFxn f t st) s).flowState L) := by
    rw [Finset.filter_or]
    ext L
    simp only [Finset.mem_union, Finset.mem_filter, Finset.mem_sdiff]
    tauto
  rw [hsplit, biUnion_union_split]
  ext g
  simp only [Finset.mem_union, Finset.not_mem_empty]
  tauto

theorem stateAfter_zero (M : Mdl V W) (t : ℚ) (s : PState V W)
    (active : List Name) : stateAfter M t s active 0 = s := rfl

theorem stateAfter_cons_succ (M : Mdl V W) (t : ℚ) (s : PState V W)
    (f : Name) (rest : List Name) (i : ℕ) :
    stateAfter M t s (f :: rest) (i + 1) =
      stateAfter M t (M.stepFxn f t s) rest i := by
  rw [stateAfter, stateAfter, List.take_succ_cons, List.foldl_cons]

theorem stateAfter_full (M : Mdl V W) (t : ℚ) (s : PState V W)
    (active : List Name) :
    stateAfter M t s active active.length =
      active.foldl (fun st f => M.stepFxn f t st) s := by
  rw [stateAfter, List.take_length]

/-- A flagged flow differs from its recorded value after some visit of
the pass. -/
theorem ckFlag_exists [DecidableEq W] (M : Mdl V W) (t : ℚ) (rec : Name → W) :
    ∀ (l : List Name) (s : PState V W) (L : Name), ckFlag M t rec l s L →
      ∃ i, 1 ≤ i ∧ i ≤ l.length ∧ (stateAfter M t s l i).flowState L ≠ rec L := by
  intro l
  induction l with
  | nil => intro s L h; exact h.elim
  | cons f rest ih =>
    intro s L h
    rcases h with ⟨_, hne⟩ | h
    · refine ⟨1, le_refl 1, Nat.succ_le_succ (Nat.zero_le _), ?_⟩
      rw [stateAfter_cons_succ, stateAfter_zero]
      exact fun hh => hne hh.symm
    · obtain ⟨i, h1, h2, h3⟩ := ih (M.stepFxn f t s) L h
      refine ⟨i + 1, Nat.le_add_left 1 i, Nat.succ_le_succ h2, ?_⟩
      rw [stateAfter_cons_succ]
      exact h3

/-- A flow never flagged during a pass, whose recorded value matches its
value at the start of the pass, keeps that value after every visit: every
change to a flow is made by a visited owner and checked right after that
owner's invocation. -/
theorem no_flag_const [DecidableEq W] (M : Mdl V W) (hwf : Wf M) (t : ℚ)
    (rec : Name → W) :
    ∀ (l : List Name) (s : PState V W) (L : Name),
      ¬ckFlag M t rec l s L → rec L = s.flowState L →
      ∀ i ≤ l.length, (stateAfter M t s l i).flowState L = rec L := by
  intro l
  induction l with
  | nil =>
    intro s L _ h0 i hi
    have hz : i = 0 := Nat.le_zero.mp hi
    subst hz
    rw [stateAfter_zero]
    exact h0.symm
  | cons f rest ih =>
    intro s L hck h0 i hi
    obtain ⟨h1, h2⟩ := not_or.mp hck
    have hstep : rec L = (M.stepFxn f t s).flowState L := by
      by_cases hmem : L ∈ M.fxnFlows f
      · by_contra hne
        exact h1 ⟨hmem, hne⟩
      · rw [hwf.frame_flow f t s L hmem]
        exact h0
    cases i with
    | zero =>
      rw [stateAfter_zero]
      exact h0.symm
    | succ j =>
      rw [stateAfter_cons_succ]
      exact ih (M.stepFxn f t s) L h2 hstep j (Nat.le_of_succ_le_succ hi)

/-- The code flags a static flow (at an owner checkpoint or in the final
sweep) exactly when the flow differs from the pass-start record after
some visit of the pass. -/
theorem flagged_iff [DecidableEq W] (M : Mdl V W) (hwf : Wf M) (t : ℚ)
    (rec : Name → W) (s : PState V W) (active : List Name)
    (hco : Coherent M rec s) (L : Name) (hL : L ∈ M.staticflows) :
    (ckFlag M t rec active s L
      ∨ rec L ≠ (active.foldl (fun st f => M.stepFxn f t st) s).flowState L)
    ↔ ∃ i, 1 ≤ i ∧ i ≤ active.length ∧
        (stateAfter M t s active i).flowState L ≠ rec L := by
  constructor
  · rintro (h | h)
    · exact ckFlag_exists M t rec active s L h
    · cases active with
      | nil => exact absurd (hco L hL) h
      | cons f rest =>
        refine ⟨(f :: rest).length, Nat.succ_le_succ (Nat.zero_le _),
          le_refl _, ?_⟩
        rw [stateAfter_full]
        exact fun hh => h hh.symm
  · rintro ⟨i, h1, h2, h3⟩
    by_contra hcon
    obtain ⟨hA, _⟩ := not_or.mp hcon
    exact h3 (no_flag_const M hwf t rec active s L hA (hco L hL) i h2)

instance existsBoundedDec (n : ℕ) (P : ℕ → Prop) [DecidablePred P] :
    Decidable (∃ i, 1 ≤ i ∧ i ≤ n ∧ P i) := by
  have h : (∃ i ∈ Finset.Icc 1 n, P i) ↔ (∃ i, 1 ≤ i ∧ i ≤ n ∧ P i) := by
    simp [Finset.mem_Icc, and_assoc]
  exact decidable_of_iff _ h

/-- The next active set as the specification words it (claim C1): every
visited block whose own mutables tuple changed across its invocation,
plus every static block adjacent (in the bipartite graph) to a static
flow whose mutables tuple differs, at some point of the pass, from the
value recorded at the start of the pass. -/
def specNext [DecidableEq V] [DecidableEq W] (M : Mdl V W) (t : ℚ)
    (rec : Name → W) (s : PState V W) (active : List Name) : Finset Name :=
  vChanged M t active s ∪
    (M.staticflows.toFinset.filter
      (fun L => ∃ i, 1 ≤ i ∧ i ≤ active.length ∧
        (stateAfter M t s active i).flowState L ≠ rec L)).biUnion
      (fun L => staticOwners M L)

theorem propStaticAux_nil [DecidableEq V] [DecidableEq W] (M : Mdl V W)
    (t : ℚ) (b : ℕ) (s : PState V W) (rec : Name → W) :
    propStaticAux M t b [] s rec = (.ok (s, rec), []) := by
  cases b <;> rfl

theorem propStaticAux_succ_cons [DecidableEq V] [DecidableEq W] (M : Mdl V W)
    (t : ℚ) (b : ℕ) (f : Name) (rest : List Name) (s : PState V W)
    (rec : Name → W) :
    propStaticAux M t (b + 1) (f :: rest) s rec =
      ((propStaticAux M t b
          (M.staticfxns.filter (fun g => g ∈ (runPass M t rec s (f :: rest)).2))
          (runPass M t rec s (f :: rest)).1
          (fun L => if L ∈ M.staticflows
            then (runPass M t rec s (f :: rest)).1.flowState L else rec L)).1,
       (f :: rest).map Call.stat ++
         (propStaticAux M t b
           (M.staticfxns.filter (fun g => g ∈ (runPass M t rec s (f :: rest)).2))
           (runPass M t rec s (f :: rest)).1
           (fun L => if L ∈ M.staticflows
             then (runPass M t rec s (f :: rest)).1.flowState L else rec L)).2) :=
  rfl

theorem propStaticAux_zero_cons [DecidableEq V] [DecidableEq W] (M : Mdl V W)
    (t : ℚ) (f : Name) (rest : List Name) (s : PState V W) (rec : Name → W) :
    propStaticAux M t 0 (f :: rest) s rec =
      (.error (.staticLoop t
          (M.staticfxns.filter (fun g => g ∈ (runPass M t rec s (f :: rest)).2))),
       (f :: rest).map Call.stat) :=
  rfl

theorem specNext_subset_static [DecidableEq V] [DecidableEq W] (M : Mdl V W)
    (t : ℚ) (rec : Name → W) (s : PState V W) (active : List Name)
    (hsub : ∀ f ∈ active, f ∈ M.staticfxns) :
    ∀ g ∈ specNext M t rec s active, g ∈ M.staticfxns := by
  intro g hg
  rw [specNext, Finset.mem_union] at hg
  rcases hg with hg | hg
  · exact hsub g (vChanged_subset M t active s g hg)
  · obtain ⟨L, _, hgo⟩ := Finset.mem_biUnion.mp hg
    rw [staticOwners, List.mem_toFinset, List.mem_filter] at hgo
    exact hgo.1

/-- Claim C1: in `prop_static`, each pass visits every block of the
current active set once, in order (the trace and the state fold); the
next active set is exactly: every visited block whose own
`return_mutables()` tuple changed across its invocation, plus every
static block adjacent via the bipartite graph to a static flow whose
`return_mutables()` tuple differs, at some point of the pass, from the
value recorded at the start of the pass (`specNext`); no block is
otherwise removed; and the loop stops (returning normally, with no
further passes) exactly when this computed next active set is empty. -/
theorem prop_static_next_active_set [DecidableEq V] [DecidableEq W]
    (M : Mdl V W) (hwf : Wf M) (t : ℚ) (rec : Name → W) (s : PState V W)
    (active : List Name) (hco : Coherent M rec s)
    (hsub : ∀ f ∈ active, f ∈ M.staticfxns) (hne : active ≠ []) (b : ℕ) :
    (runPass M t rec s active).2 = specNext M t rec s active
    ∧ (runPass M t rec s active).1 =
        active.foldl (fun st f => M.stepFxn f t st) s
    ∧ (specNext M t rec s active = ∅ →
        propStaticAux M t (b + 1) active s rec =
          (.ok (active.foldl (fun st f => M.stepFxn f t st) s,
            fun L => if L ∈ M.staticflows
              then (active.foldl (fun st f => M.stepFxn f t st) s).flowState L
              else rec L),
           active.map Call.stat))
    ∧ (specNext M t rec s active ≠ ∅ →
        M.staticfxns.filter (fun g => g ∈ specNext M t rec s active) ≠ []
        ∧ propStaticAux M t (b + 1) active s rec =
            ((propStaticAux M t b
                (M.staticfxns.filter (fun g => g ∈ specNext M t rec s active))
                (active.foldl (fun st f => M.stepFxn f t st) s)
                (fun L => if L ∈ M.staticflows
                  then (active.foldl (fun st f => M.stepFxn f t st) s).flowState L
                  else rec L)).1,
             active.map Call.stat ++
               (propStaticAux M t b
                 (M.staticfxns.filter (fun g => g ∈ specNext M t rec s active))
                 (active.foldl (fun st f => M.stepFxn f t st) s)
                 (fun L => if L ∈ M.staticflows
                   then (active.foldl (fun st f => M.stepFxn f t st) s).flowState L
                   else rec L)).2)) := by
  have hrp2 : (runPass M t rec s active).2 = specNext M t rec s active := by
    rw [runPass_snd, specNext]
    congr 1
    congr 1
    exact Finset.filter_congr
      (fun L hL => flagged_iff M hwf t rec s active hco L (List.mem_toFinset.mp hL))
  obtain ⟨f, rest, rfl⟩ := List.exists_cons_of_ne_nil hne
  refine ⟨hrp2, runPass_fst M t rec s (f :: rest), ?_, ?_⟩
  · intro hempty
    rw [propStaticAux_succ_cons, hrp2, hempty]
    have hfl : M.staticfxns.filter (fun g => g ∈ (∅ : Finset Name)) = [] := by
      simp
    rw [hfl, propStaticAux_nil]
    rw [runPass_fst M t rec s (f :: rest)]
    rw [List.append_nil]
  · intro hnonempty
    have hfl : M.staticfxns.filter (fun g => g ∈ specNext M t rec s (f :: rest)) ≠ [] := by
      obtain ⟨g, hg⟩ := Finset.nonempty_iff_ne_empty.mpr hnonempty
      have hgs : g ∈ M.staticfxns :=
        specNext_subset_static M t rec s (f :: rest) hsub g hg
      refine List.ne_nil_of_mem (a := g) ?_
      rw [List.mem_filter]
      exact ⟨hgs, by simpa using hg⟩
    refine ⟨hfl, ?_⟩
    rw [propStaticAux_succ_cons, hrp2, runPass_fst M t rec s (f :: rest)]

/-- A concrete two-function model for the claim C1 witness: function 0
writes `true` into flow 0, function 1 is inert; both are static and share
flow 0. -/
def stepW1 : Name → ℚ → PState Bool Bool → PState Bool Bool :=
  fun f _ s =>
    if f = 0 then ⟨s.fxnState, fun L => if L = 0 then true else s.flowState L⟩
    else s

def Mw1 : Mdl Bool Bool :=
  ⟨[0, 1], [0, 1], [], [0], fun f => if f ≤ 1 then [0] else [], stepW1,
   fun _ _ _ s => s⟩

def wS0 : PState Bool Bool := ⟨fun _ => false, fun _ => false⟩

def wRec : Name → Bool := fun _ => false

theorem Mw1_wf : Wf Mw1 := by
  refine ⟨by decide, by decide, ?_, ?_, ?_⟩
  · intro f t s g _
    by_cases hf : f = 0
    · subst hf
      rfl
    · show (stepW1 f t s).fxnState g = s.fxnState g
      rw [stepW1, if_neg hf]
  · intro f t s L hL
    by_cases hf : f = 0
    · subst hf
      have hL0 : L ≠ 0 := by
        intro h
        subst h
        exact hL (by decide)
      show (stepW1 0 t s).flowState L = s.flowState L
      rw [stepW1, if_pos rfl]
      exact if_neg hL0
    · show (stepW1 f t s).flowState L = s.flowState L
      rw [stepW1, if_neg hf]
  · intro f t s s' hfx hfl
    by_cases hf : f = 0
    · subst hf
      refine ⟨hfx, ?_⟩
      intro L hL
      have hL0 : L = 0 := List.mem_singleton.mp hL
      subst hL0
      rfl
    · refine ⟨?_, ?_⟩
      · show (stepW1 f t s).fxnState f = (stepW1 f t s').fxnState f
        simp only [stepW1, if_neg hf]
        exact hfx
      · intro L hL
        show (stepW1 f t s).flowState L = (stepW1 f t s').flowState L
        simp only [stepW1, if_neg hf]
        exact hfl L hL

/-- Witness for claim C1 at the concrete model `Mw1`. -/
theorem prop_static_next_active_set_witness :
    (runPass Mw1 0 wRec wS0 [0, 1]).2 = specNext Mw1 0 wRec wS0 [0, 1]
    ∧ (runPass Mw1 0 wRec wS0 [0, 1]).1 =
        [0, 1].foldl (fun st f => Mw1.stepFxn f 0 st) wS0
    ∧ (specNext Mw1 0 wRec wS0 [0, 1] = ∅ →
        propStaticAux Mw1 0 (999 + 1) [0, 1] wS0 wRec =
          (.ok ([0, 1].foldl (fun st f => Mw1.stepFxn f 0 st) wS0,
            fun L => if L ∈ Mw1.staticflows
              then ([0, 1].foldl (fun st f => Mw1.stepFxn f 0 st) wS0).flowState L
              else wRec L),
           [0, 1].map Call.stat))
    ∧ (specNext Mw1 0 wRec wS0 [0, 1] ≠ ∅ →
        Mw1.staticfxns.filter (fun g => g ∈ specNext Mw1 0 wRec wS0 [0, 1]) ≠ []
        ∧ propStaticAux Mw1 0 (999 + 1) [0, 1] wS0 wRec =
            ((propStaticAux Mw1 0 999
                (Mw1.staticfxns.filter (fun g => g ∈ specNext Mw1 0 wRec wS0 [0, 1]))
                ([0, 1].foldl (fun st f => Mw1.stepFxn f 0 st) wS0)
                (fun L => if L ∈ Mw1.staticflows
                  then ([0, 1].foldl (fun st f => Mw1.stepFxn f 0 st) wS0).flowState L
                  else wRec L)).1,
             [0, 1].map Call.stat ++
               (propStaticAux Mw1 0 999
                 (Mw1.staticfxns.filter (fun g => g ∈ specNext Mw1 0 wRec wS0 [0, 1]))
                 ([0, 1].foldl (fun st f => Mw1.stepFxn f 0 st) wS0)
                 (fun L => if L ∈ Mw1.staticflows
                   then ([0, 1].foldl (fun st f => Mw1.stepFxn f 0 st) wS0).flowState L
                   else wRec L)).2)) :=
  prop_static_next_active_set Mw1 Mw1_wf 0 wRec wS0 [0, 1]
    (fun _ _ => rfl) (fun _ hf => hf) (by decide) 999

/-! ### Claim C2: the convergence guard -/

/-- One pass of the `while activefxns` loop as a transformer on the
triple (state, recorded flow dict, active list). -/
def stepPass [DecidableEq V] [DecidableEq W] (M : Mdl V W) (t : ℚ)
    (x : PState V W × (Name → W) × List Name) :
    PState V W × (Name → W) × List Name :=
  let pr := runPass M t x.2.1 x.1 x.2.2
  (pr.1, fun L => if L ∈ M.staticflows then pr.1.flowState L else x.2.1 L,
   M.staticfxns.filter (fun f => f ∈ pr.2))

/-- The loop state after `k` passes. -/
def passesFrom [DecidableEq V] [DecidableEq W] (M : Mdl V W) (t : ℚ) :
    ℕ → PState V W × (Name → W) × List Name →
      PState V W × (Name → W) × List Name
  | 0, x => x
  | k + 1, x => passesFrom M t k (stepPass M t x)

/-- If the active set stays nonempty for the whole budget, the loop
raises the non-convergence exception carrying the time and the
still-active block list. -/
theorem propStaticAux_error [DecidableEq V] [DecidableEq W] (M : Mdl V W)
    (t : ℚ) :
    ∀ (b : ℕ) (s : PState V W) (rec : Name → W) (active : List Name),
      (∀ k ≤ b, (passesFrom M t k (s, rec, active)).2.2 ≠ []) →
      (propStaticAux M t b active s rec).1 =
        .error (.staticLoop t (passesFrom M t (b + 1) (s, rec, active)).2.2) := by
  intro b
  induction b with
  | zero =>
    intro s rec active h
    have hne := h 0 (le_refl 0)
    obtain ⟨f, rest, rfl⟩ := List.exists_cons_of_ne_nil hne
    rw [propStaticAux_zero_cons]
    rfl
  | succ b ih =>
    intro s rec active h
    have hne := h 0 (Nat.zero_le _)
    obtain ⟨f, rest, rfl⟩ := List.exists_cons_of_ne_nil hne
    rw [propStaticAux_succ_cons]
    exact ih (runPass M t rec s (f :: rest)).1
      (fun L => if L ∈ M.staticflows
        then (runPass M t rec s (f :: rest)).1.flowState L else rec L)
      (M.staticfxns.filter (fun g => g ∈ (runPass M t rec s (f :: rest)).2))
      (fun k hk => h (k + 1) (Nat.succ_le_succ hk))

/-- The dynamic phase succeeds when every name of the union is a model
function, producing the folded state and the dynamic-call trace. -/
theorem dynLoop_ok (M : Mdl V W) (t : ℚ) (ff : List (Name × List Name)) :
    ∀ (l : List Name) (s : PState V W), (∀ f ∈ l, f ∈ M.fxns) →
      dynLoop M t ff l s =
        (.ok (l.foldl (fun st f => M.stepDyn f t (lookupFaults ff f) st) s),
         l.map (fun f => Call.dyn f (lookupFaults ff f))) := by
  intro l
  induction l with
  | nil => intro s _; rfl
  | cons f rest ih =>
    intro s h
    have hf : f ∈ M.fxns := h f (List.mem_cons_self f rest)
    have hrest := ih (M.stepDyn f t (lookupFaults ff f) s)
      (fun g hg => h g (List.mem_cons_of_mem f hg))
    simp only [dynLoop, hf, if_true, hrest, List.foldl_cons, List.map_cons]

set_option maxRecDepth 8000 in
/-- Claim C2: when the static fixed-point loop would keep a nonempty
active set through 1001 passes, `Model.propagate` raises rather than
looping forever: `prop_static` raises the non-convergence exception
carrying the time and the still-active block list, and `propagate`
re-raises the time-stamped wrapper with that exception attached as its
context. -/
theorem propagate_convergence_guard [DecidableEq V] [DecidableEq W]
    (M : Mdl V W) (t : ℚ) (ff : List (Name × List Name))
    (dist : PState V W → PState V W) (s : PState V W) (fs : Option (Name → W))
    (hkeys : ∀ f ∈ dynUnionList M ff, f ∈ M.fxns)
    (hloop : ∀ k ≤ 1000,
      (passesFrom M t k (dynPhaseState M t ff (dist s),
        recInit fs (dynPhaseState M t ff (dist s)), M.staticfxns)).2.2 ≠ []) :
    (prop_static M t (dynPhaseState M t ff (dist s)) fs).1 =
      .error (.staticLoop t
        (passesFrom M t 1001 (dynPhaseState M t ff (dist s),
          recInit fs (dynPhaseState M t ff (dist s)), M.staticfxns)).2.2)
    ∧ (propagate M t ff dist s fs).1 =
      .error (.staticWrap t (.staticLoop t
        (passesFrom M t 1001 (dynPhaseState M t ff (dist s),
          recInit fs (dynPhaseState M t ff (dist s)), M.staticfxns)).2.2)) := by
  have hps : (prop_static M t (dynPhaseState M t ff (dist s)) fs).1 =
      .error (.staticLoop t
        (passesFrom M t 1001 (dynPhaseState M t ff (dist s),
          recInit fs (dynPhaseState M t ff (dist s)), M.staticfxns)).2.2) :=
    propStaticAux_error M t 1000 (dynPhaseState M t ff (dist s))
      (recInit fs (dynPhaseState M t ff (dist s))) M.staticfxns hloop
  refine ⟨hps, ?_⟩
  have hd := dynLoop_ok M t ff (dynUnionList M ff) (dist s) hkeys
  rw [propagate, hd]
  show (match (prop_static M t (dynPhaseState M t ff (dist s)) fs).1 with
    | .error e =>
        ((.error (.staticWrap t e) : Except PropErr (PState V W × (Name → W))),
          (dynUnionList M ff).map (fun f => Call.dyn f (lookupFaults ff f)) ++
            (prop_static M t (dynPhaseState M t ff (dist s)) fs).2)
    | .ok p => (.ok p,
          (dynUnionList M ff).map (fun f => Call.dyn f (lookupFaults ff f)) ++
            (prop_static M t (dynPhaseState M t ff (dist s)) fs).2)).1 = _
  rw [hps]

/-- The adversarial model for the claim C2 witness: one static function
that toggles its single flow on every static invocation, so the static
fixed point never settles. -/
def stepTog : Name → ℚ → PState Bool Bool → PState Bool Bool :=
  fun f _ s =>
    if f = 0 then
      ⟨s.fxnState, fun L => if L = 0 then !(s.flowState 0) else s.flowState L⟩
    else s

def Mtog : Mdl Bool Bool :=
  ⟨[0], [0], [], [0], fun f => if f = 0 then [0] else [], stepTog,
   fun _ _ _ s => s⟩

theorem tog_pass (s : PState Bool Bool) (rec : Name → Bool)
    (hco : rec 0 = s.flowState 0) :
    (stepPass Mtog 0 (s, rec, [0])).2.2 = [0]
    ∧ (stepPass Mtog 0 (s, rec, [0])).2.1 0 =
        (stepPass Mtog 0 (s, rec, [0])).1.flowState 0 := by
  constructor
  · show Mtog.staticfxns.filter (fun f => f ∈ (runPass Mtog 0 rec s [0]).2) = [0]
    have h0 : (0 : Name) ∈ (runPass Mtog 0 rec s [0]).2 := by
      rw [runPass_snd]
      refine Finset.mem_union_right _ ?_
      refine Finset.mem_biUnion.mpr ⟨0, ?_, ?_⟩
      · refine Finset.mem_filter.mpr ⟨by decide, Or.inl (Or.inl ⟨by decide, ?_⟩)⟩
        rw [hco]
        show s.flowState 0 ≠ (Mtog.stepFxn 0 0 s).flowState 0
        show s.flowState 0 ≠ !(s.flowState 0)
        cases s.flowState 0 <;> decide
      · rw [staticOwners]
        decide
    show List.filter (fun f => decide (f ∈ (runPass Mtog 0 rec s [0]).2)) [0] = [0]
    rw [List.filter_cons]
    rw [if_pos (by simpa using h0)]
    rfl
  · show (if (0 : Name) ∈ Mtog.staticflows
        then (runPass Mtog 0 rec s [0]).1.flowState 0 else rec 0) =
      (runPass Mtog 0 rec s [0]).1.flowState 0
    rw [if_pos (by decide)]

theorem tog_invariant :
    ∀ (k : ℕ) (s : PState Bool Bool) (rec : Name → Bool),
      rec 0 = s.flowState 0 →
      (passesFrom Mtog 0 k (s, rec, [0])).2.2 = [0] := by
  intro k
  induction k with
  | zero => intro s rec _; rfl
  | succ k ih =>
    intro s rec h
    obtain ⟨h22, h21⟩ := tog_pass s rec h
    have hx : stepPass Mtog 0 (s, rec, [0]) =
        ((stepPass Mtog 0 (s, rec, [0])).1,
         (stepPass Mtog 0 (s, rec, [0])).2.1, [0]) :=
      Prod.ext rfl (Prod.ext rfl h22)
    rw [show passesFrom Mtog 0 (k + 1) (s, rec, [0]) =
          passesFrom Mtog 0 k (stepPass Mtog 0 (s, rec, [0])) from rfl, hx]
    exact ih _ _ h21

/-- Witness for claim C2: the toggle model never converges, so
`propagate` raises the wrapped non-convergence error. -/
theorem propagate_convergence_guard_witness :
    (prop_static Mtog 0 (dynPhaseState Mtog 0 [] (id wS0)) none).1 =
      .error (.staticLoop 0
        (passesFrom Mtog 0 1001 (dynPhaseState Mtog 0 [] (id wS0),
          recInit none (dynPhaseState Mtog 0 [] (id wS0)), Mtog.staticfxns)).2.2)
    ∧ (propagate Mtog 0 [] id wS0 none).1 =
      .error (.staticWrap 0 (.staticLoop 0
        (passesFrom Mtog 0 1001 (dynPhaseState Mtog 0 [] (id wS0),
          recInit none (dynPhaseState Mtog 0 [] (id wS0)), Mtog.staticfxns)).2.2)) :=
  propagate_convergence_guard Mtog 0 [] id wS0 none (by decide)
    (fun k _ => by
      have h' : (passesFrom Mtog 0 k (dynPhaseState Mtog 0 [] (id wS0),
          recInit none (dynPhaseState Mtog 0 [] (id wS0)),
          Mtog.staticfxns)).2.2 = [0] :=
        tog_invariant k (dynPhaseState Mtog 0 [] (id wS0))
          (recInit none (dynPhaseState Mtog 0 [] (id wS0))) rfl
      rw [h']
      decide)

/-! ### The dynamic phase: exactly-once invocation over the union -/

/-- Whether a recorded call is a dynamic invocation of function `f`. -/
def dynFor (f : Name) : Call → Bool
  | .dyn g _ => g == f
  | .stat _ => false

/-- Every call recorded by the static fixed-point loop is a static call:
`fxn('static', time=t)` carries no faults argument. -/
theorem propStaticAux_stat [DecidableEq V] [DecidableEq W] (M : Mdl V W)
    (t : ℚ) :
    ∀ (b : ℕ) (active : List Name) (s : PState V W) (rec : Name → W),
      ∀ c ∈ (propStaticAux M t b active s rec).2, ∃ g, c = Call.stat g := by
  intro b
  induction b with
  | zero =>
    intro active s rec c hc
    cases active with
    | nil =>
      rw [propStaticAux_nil] at hc
      exact absurd hc (List.not_mem_nil c)
    | cons f rest =>
      rw [propStaticAux_zero_cons] at hc
      obtain ⟨g, _, rfl⟩ := List.mem_map.mp hc
      exact ⟨g, rfl⟩
  | succ b ih =>
    intro active s rec c hc
    cases active with
    | nil =>
      rw [propStaticAux_nil] at hc
      exact absurd hc (List.not_mem_nil c)
    | cons f rest =>
      rw [propStaticAux_succ_cons] at hc
      rcases List.mem_append.mp hc with h | h
      · obtain ⟨g, _, rfl⟩ := List.mem_map.mp h
        exact ⟨g, rfl⟩
      · exact ih _ _ _ c h

/-- A filter whose predicate rejects every member yields the empty list. -/
theorem filter_eq_nil_of_ne {α : Type} (p : α → Bool) :
    ∀ (l : List α), (∀ x ∈ l, p x = false) → l.filter p = [] := by
  intro l
  induction l with
  | nil => intro _; rfl
  | cons a l ih =>
    intro h
    have ha : ¬ (p a = true) := by
      rw [h a (List.mem_cons_self a l)]
      simp
    rw [List.filter_cons, if_neg ha]
    exact ih (fun x hx => h x (List.mem_cons_of_mem a hx))

/-- In a duplicate-free list of names, filtering for a member yields that
single member. -/
theorem nodup_filter_eq_singleton (f : Name) :
    ∀ (l : List Name), l.Nodup → f ∈ l → l.filter (fun g => g == f) = [f] := by
  intro l
  induction l with
  | nil => intro _ h; exact absurd h (List.not_mem_nil f)
  | cons a l ih =>
    intro hnd hf
    rw [List.nodup_cons] at hnd
    rcases List.mem_cons.mp hf with rfl | hf2
    · have hz : l.filter (fun g => g == f) = [] := by
        apply filter_eq_nil_of_ne
        intro x hx
        have hxf : x ≠ f := fun he => hnd.1 (he ▸ hx)
        simp [hxf]
      rw [List.filter_cons, if_pos (by simp), hz]
    · have ha : ¬ ((a == f) = true) := by
        simp only [beq_iff_eq]
        intro he
        apply hnd.1
        rw [he]
        exact hf2
      rw [List.filter_cons, if_neg ha]
      exact ih hnd.2 hf2

/-- Filtering a mapped list filters the source through the composite. -/
theorem filter_of_map {α β : Type} (p : β → Bool) (h : α → β) :
    ∀ (l : List α), (l.map h).filter p = (l.filter (fun a => p (h a))).map h := by
  intro l
  induction l with
  | nil => rfl
  | cons a l ih =>
    rw [List.map_cons, List.filter_cons, List.filter_cons]
    by_cases hp : p (h a) = true
    · rw [if_pos hp, if_pos hp, List.map_cons, ih]
    · rw [if_neg hp, if_neg hp, ih]

/-- Taking the length of the left part of an append returns it. -/
theorem take_length_append {α : Type} :
    ∀ (l1 l2 : List α), (l1 ++ l2).take l1.length = l1 := by
  intro l1 l2
  induction l1 with
  | nil => rfl
  | cons a l ih =>
    show a :: (l ++ l2).take l.length = a :: l
    rw [ih]

/-- The union list is duplicate-free when `dynamicfxns` and the fault-dict
keys are (an `OrderedSet` and a `dict` guarantee both). -/
theorem dynUnionList_nodup (M : Mdl V W) (ff : List (Name × List Name))
    (hnd : M.dynamicfxns.Nodup) (hknd : (ff.map Prod.fst).Nodup) :
    (dynUnionList M ff).Nodup := by
  simp only [dynUnionList]
  refine List.Nodup.append hnd (List.Nodup.filter _ hknd) ?_
  intro x hx hx2
  have hxn := (List.mem_filter.mp hx2).2
  simp only [decide_eq_true_eq] at hxn
  exact hxn hx

/-- Every fault-dict key appears in the union list. -/
theorem mem_dynUnionList (M : Mdl V W) (ff : List (Name × List Name))
    (f : Name) (hf : f ∈ ff.map Prod.fst) : f ∈ dynUnionList M ff := by
  by_cases hd : f ∈ M.dynamicfxns
  · exact List.mem_append.mpr (Or.inl hd)
  · exact List.mem_append.mpr
      (Or.inr (List.mem_filter.mpr ⟨hf, decide_eq_true hd⟩))

/-- Looking up a key of a duplicate-free dict returns its value. -/
theorem dictGet_of_mem_nodup {β : Type} :
    ∀ (ff : List (Name × β)) (p : Name × β),
      (ff.map Prod.fst).Nodup → p ∈ ff → dictGet p.1 ff = some p.2 := by
  intro ff
  induction ff with
  | nil => intro p _ hp; exact absurd hp (List.not_mem_nil p)
  | cons q rest ih =>
    obtain ⟨k, v⟩ := q
    intro p hknd hp
    rw [List.map_cons, List.nodup_cons] at hknd
    rcases List.mem_cons.mp hp with rfl | hp2
    · simp [dictGet]
    · have hk : k ≠ p.1 := by
        intro he
        apply hknd.1
        rw [he]
        exact List.mem_map.mpr ⟨p, hp2, rfl⟩
      simp only [dictGet]
      rw [if_neg hk]
      exact ih p hknd.2 hp2

/-- The faults looked up for a key of the (duplicate-free) fault dict are
exactly the scheduled ones. -/
theorem lookupFaults_of_mem (ff : List (Name × List Name))
    (p : Name × List Name) (hknd : (ff.map Prod.fst).Nodup) (hp : p ∈ ff) :
    lookupFaults ff p.1 = p.2 := by
  rw [lookupFaults, dictGet_of_mem_nodup ff p hknd hp]
  rfl

/-- When every union member is a model function, the full call trace of
`Model.propagate` is the dynamic calls over the union, in union order and
with the scheduled faults, followed by the static calls. -/
theorem propagate_trace [DecidableEq V] [DecidableEq W] (M : Mdl V W)
    (t : ℚ) (ff : List (Name × List Name)) (dist : PState V W → PState V W)
    (s : PState V W) (fs : Option (Name → W))
    (hkeys : ∀ f ∈ dynUnionList M ff, f ∈ M.fxns) :
    (propagate M t ff dist s fs).2 =
      (dynUnionList M ff).map (fun f => Call.dyn f (lookupFaults ff f)) ++
        (prop_static M t (dynPhaseState M t ff (dist s)) fs).2 := by
  have hd := dynLoop_ok M t ff (dynUnionList M ff) (dist s) hkeys
  rw [propagate, hd]
  show (match (prop_static M t (dynPhaseState M t ff (dist s)) fs).1 with
    | .error e =>
        ((.error (.staticWrap t e) : Except PropErr (PState V W × (Name → W))),
          (dynUnionList M ff).map (fun f => Call.dyn f (lookupFaults ff f)) ++
            (prop_static M t (dynPhaseState M t ff (dist s)) fs).2)
    | .ok p => (.ok p,
          (dynUnionList M ff).map (fun f => Call.dyn f (lookupFaults ff f)) ++
            (prop_static M t (dynPhaseState M t ff (dist s)) fs).2)).2 = _
  cases (prop_static M t (dynPhaseState M t ff (dist s)) fs).1 <;> rfl

/-- Filtering the full trace for the dynamic calls of a function that
occurs exactly once in the union yields its single invocation with its
scheduled faults. -/
theorem propagate_filter_dynFor [DecidableEq V] [DecidableEq W] (M : Mdl V W)
    (t : ℚ) (ff : List (Name × List Name)) (dist : PState V W → PState V W)
    (s : PState V W) (fs : Option (Name → W)) (f : Name)
    (hkeys : ∀ g ∈ dynUnionList M ff, g ∈ M.fxns)
    (hone : (dynUnionList M ff).filter (fun g => g == f) = [f]) :
    (propagate M t ff dist s fs).2.filter (dynFor f) =
      [Call.dyn f (lookupFaults ff f)] := by
  have hstat : (prop_static M t (dynPhaseState M t ff (dist s)) fs).2.filter
      (dynFor f) = [] := by
    apply filter_eq_nil_of_ne
    intro c hc
    obtain ⟨g, rfl⟩ := propStaticAux_stat M t 1000 M.staticfxns
      (dynPhaseState M t ff (dist s))
      (recInit fs (dynPhaseState M t ff (dist s))) c hc
    rfl
  rw [propagate_trace M t ff dist s fs hkeys, List.filter_append, hstat,
      List.append_nil, filter_of_map]
  have hcomp : (fun g => dynFor f (Call.dyn g (lookupFaults ff g))) =
      fun g => g == f := by
    funext g
    rfl
  rw [hcomp, hone]
  rfl

/-- Claim C3: in one call of `Model.propagate` at time `t`, the first
calls made are exactly one dynamic invocation of each function of
`dynamicfxns`, in the fixed `dynamicfxns` order, each carrying exactly
the faults scheduled for that function; filtering the whole trace shows
no function of `dynamicfxns` receives a second dynamic call. The
conclusion holds for every state and disturbance, so the single
invocation is independent of any flow-state change elsewhere. -/
theorem propagate_dynamic_exactly_once [DecidableEq V] [DecidableEq W]
    (M : Mdl V W) (t : ℚ) (ff : List (Name × List Name))
    (dist : PState V W → PState V W) (s : PState V W) (fs : Option (Name → W))
    (hkeys : ∀ f ∈ dynUnionList M ff, f ∈ M.fxns)
    (hnd : M.dynamicfxns.Nodup) :
    (propagate M t ff dist s fs).2.take M.dynamicfxns.length =
      M.dynamicfxns.map (fun f => Call.dyn f (lookupFaults ff f))
    ∧ ∀ f ∈ M.dynamicfxns,
        (propagate M t ff dist s fs).2.filter (dynFor f) =
          [Call.dyn f (lookupFaults ff f)] := by
  constructor
  · rw [propagate_trace M t ff dist s fs hkeys]
    simp only [dynUnionList, List.map_append, List.append_assoc]
    rw [show M.dynamicfxns.length =
        (M.dynamicfxns.map (fun f => Call.dyn f (lookupFaults ff f))).length
      from (List.length_map _ _).symm]
    exact take_length_append _ _
  · intro f hf
    refine propagate_filter_dynFor M t ff dist s fs f hkeys ?_
    simp only [dynUnionList, List.filter_append]
    have hex : ((ff.map Prod.fst).filter
        (fun g => g ∉ M.dynamicfxns)).filter (fun g => g == f) = [] := by
      apply filter_eq_nil_of_ne
      intro x hx
      have hxn := (List.mem_filter.mp hx).2
      simp only [decide_eq_true_eq] at hxn
      have hxf : x ≠ f := fun he => hxn (he ▸ hf)
      simp [hxf]
    rw [nodup_filter_eq_singleton f M.dynamicfxns hnd hf, hex, List.append_nil]

/-- Claim C10: the phase-1 loop of `Model.propagate` iterates over the
union of `dynamicfxns` and the fault-dict keys, so every function named
in `fxnfaults` receives exactly one dynamic call carrying its scheduled
faults, even when it is not a dynamic function; the static pass issues
only faultless static calls, so that dynamic call is the only place the
scheduled faults are passed in. -/
theorem propagate_union_iteration [DecidableEq V] [DecidableEq W]
    (M : Mdl V W) (t : ℚ) (ff : List (Name × List Name))
    (dist : PState V W → PState V W) (s : PState V W) (fs : Option (Name → W))
    (hkeys : ∀ f ∈ dynUnionList M ff, f ∈ M.fxns)
    (hnd : M.dynamicfxns.Nodup) (hknd : (ff.map Prod.fst).Nodup) :
    (propagate M t ff dist s fs).2 =
      (dynUnionList M ff).map (fun f => Call.dyn f (lookupFaults ff f)) ++
        (prop_static M t (dynPhaseState M t ff (dist s)) fs).2
    ∧ (∀ p ∈ ff, (propagate M t ff dist s fs).2.filter (dynFor p.1) =
        [Call.dyn p.1 p.2])
    ∧ ∀ c ∈ (prop_static M t (dynPhaseState M t ff (dist s)) fs).2,
        ∃ g, c = Call.stat g := by
  refine ⟨propagate_trace M t ff dist s fs hkeys, ?_, ?_⟩
  · intro p hp
    have hlk : lookupFaults ff p.1 = p.2 := lookupFaults_of_mem ff p hknd hp
    rw [← hlk]
    exact propagate_filter_dynFor M t ff dist s fs p.1 hkeys
      (nodup_filter_eq_singleton p.1 (dynUnionList M ff)
        (dynUnionList_nodup M ff hnd hknd)
        (mem_dynUnionList M ff p.1 (List.mem_map.mpr ⟨p, hp, rfl⟩)))
  · intro c hc
    exact propStaticAux_stat M t 1000 M.staticfxns
      (dynPhaseState M t ff (dist s))
      (recInit fs (dynPhaseState M t ff (dist s))) c hc

/-- The witness model for the dynamic-phase claims: three functions, two
dynamic and one static, with identity behaviours and no flows. -/
def M3 : Mdl Bool Bool :=
  ⟨[0, 1, 2], [2], [0, 1], [], fun _ => [], fun _ _ s => s, fun _ _ _ s => s⟩

/-- Witness for claim C3 at the concrete model `M3` with a fault
scheduled on the static function `2`. -/
theorem propagate_dynamic_exactly_once_witness :
    (propagate M3 0 [(2, [7])] id wS0 none).2.take M3.dynamicfxns.length =
      M3.dynamicfxns.map (fun f => Call.dyn f (lookupFaults [(2, [7])] f))
    ∧ ∀ f ∈ M3.dynamicfxns,
        (propagate M3 0 [(2, [7])] id wS0 none).2.filter (dynFor f) =
          [Call.dyn f (lookupFaults [(2, [7])] f)] :=
  propagate_dynamic_exactly_once M3 0 [(2, [7])] id wS0 none (by decide)
    (by decide)

/-- Witness for claim C10 at the concrete model `M3`. -/
theorem propagate_union_iteration_witness :
    (propagate M3 0 [(2, [7])] id wS0 none).2 =
      (dynUnionList M3 [(2, [7])]).map
        (fun f => Call.dyn f (lookupFaults [(2, [7])] f)) ++
        (prop_static M3 0 (dynPhaseState M3 0 [(2, [7])] (id wS0)) none).2
    ∧ (∀ p ∈ [((2 : Name), [(7 : Name)])],
        (propagate M3 0 [(2, [7])] id wS0 none).2.filter (dynFor p.1) =
          [Call.dyn p.1 p.2])
    ∧ ∀ c ∈ (prop_static M3 0 (dynPhaseState M3 0 [(2, [7])] (id wS0)) none).2,
        ∃ g, c = Call.stat g :=
  propagate_union_iteration M3 0 [(2, [7])] id wS0 none (by decide)
    (by decide) (by decide)

/-! ### Static fixed-point idempotence -/

/-- A static function is at a fixed point at state `s`: invoking its
static behaviour leaves its own mutables tuple and all of its flows
unchanged. -/
def AtFix (M : Mdl V W) (t : ℚ) (s : PState V W) (f : Name) : Prop :=
  (M.stepFxn f t s).fxnState f = s.fxnState f ∧
    ∀ L ∈ M.fxnFlows f, (M.stepFxn f t s).flowState L = s.flowState L

/-- States with equal components are equal. -/
theorem pstate_eq {x y : PState V W} (h1 : x.fxnState = y.fxnState)
    (h2 : x.flowState = y.flowState) : x = y := by
  obtain ⟨xa, xb⟩ := x
  obtain ⟨ya, yb⟩ := y
  cases h1
  cases h2
  rfl

/-- A function at a fixed point leaves the whole state unchanged: the
frame conditions confine its writes to its own mutables and flows. -/
theorem stepFxn_eq_self (M : Mdl V W) (hwf : Wf M) (t : ℚ)
    (s : PState V W) (f : Name) (h : AtFix M t s f) :
    M.stepFxn f t s = s := by
  apply pstate_eq
  · funext g
    by_cases hg : g = f
    · subst hg
      exact h.1
    · exact hwf.frame_fxn f t s g hg
  · funext L
    by_cases hL : L ∈ M.fxnFlows f
    · exact h.2 L hL
    · exact hwf.frame_flow f t s L hL

/-- Folding the static steps of functions all at a fixed point is the
identity. -/
theorem foldl_eq_self_of_fix (M : Mdl V W) (hwf : Wf M) (t : ℚ)
    (s : PState V W) :
    ∀ (l : List Name), (∀ f ∈ l, AtFix M t s f) →
      l.foldl (fun st g => M.stepFxn g t st) s = s := by
  intro l
  induction l with
  | nil => intro _; rfl
  | cons f rest ih =>
    intro h
    rw [List.foldl_cons,
      stepFxn_eq_self M hwf t s f (h f (List.mem_cons_self f rest))]
    exact ih (fun g hg => h g (List.mem_cons_of_mem f hg))

/-- No visited function changes its own mutables when all are at a fixed
point. -/
theorem vChanged_empty_of_fix [DecidableEq V] [DecidableEq W] (M : Mdl V W)
    (hwf : Wf M) (t : ℚ) (s : PState V W) :
    ∀ (l : List Name), (∀ f ∈ l, AtFix M t s f) → vChanged M t l s = ∅ := by
  intro l
  induction l with
  | nil => intro _; rfl
  | cons f rest ih =>
    intro h
    have hid := stepFxn_eq_self M hwf t s f (h f (List.mem_cons_self f rest))
    rw [vChanged, hid, if_neg (fun hc => hc rfl), Finset.empty_union]
    exact ih (fun g hg => h g (List.mem_cons_of_mem f hg))

/-- No flow is flagged at a checkpoint when all visited functions are at
a fixed point and the record matches the state. -/
theorem ckFlag_false_of_fix [DecidableEq W] (M : Mdl V W) (hwf : Wf M)
    (t : ℚ) (rec : Name → W) (s : PState V W) (L : Name)
    (hL : rec L = s.flowState L) :
    ∀ (l : List Name), (∀ f ∈ l, AtFix M t s f) → ¬ckFlag M t rec l s L := by
  intro l
  induction l with
  | nil => intro _ h; exact h
  | cons f rest ih =>
    intro h hck
    have hid := stepFxn_eq_self M hwf t s f (h f (List.mem_cons_self f rest))
    rw [ckFlag, hid] at hck
    rcases hck with ⟨_, hne⟩ | hck
    · exact hne hL
    · exact ih (fun g hg => h g (List.mem_cons_of_mem f hg)) hck

/-- A coherent pass over functions all at a fixed point changes nothing
and computes an empty next active set. -/
theorem runPass_of_atFix [DecidableEq V] [DecidableEq W] (M : Mdl V W)
    (hwf : Wf M) (t : ℚ) (rec : Name → W) (s : PState V W)
    (active : List Name) (hco : Coherent M rec s)
    (hfix : ∀ f ∈ active, AtFix M t s f) :
    runPass M t rec s active = (s, ∅) := by
  have h1 : (runPass M t rec s active).1 = s := by
    rw [runPass_fst]
    exact foldl_eq_self_of_fix M hwf t s active hfix
  have h2 : (runPass M t rec s active).2 = ∅ := by
    rw [runPass_snd, vChanged_empty_of_fix M hwf t s active hfix,
      foldl_eq_self_of_fix M hwf t s active hfix,
      Finset.filter_false_of_mem]
    · simp
    · intro L hLm
      have hcoL := hco L (List.mem_toFinset.mp hLm)
      rw [not_or]
      exact ⟨ckFlag_false_of_fix M hwf t rec s L hcoL active hfix,
        fun hne => hne hcoL⟩
  exact Prod.ext h1 h2

/-- The computed next active set of a pass, in specification form (the
code's `nextfxns` under coherence of the record). -/
theorem runPass_snd_spec [DecidableEq V] [DecidableEq W] (M : Mdl V W)
    (hwf : Wf M) (t : ℚ) (rec : Name → W) (s : PState V W)
    (active : List Name) (hco : Coherent M rec s) :
    (runPass M t rec s active).2 = specNext M t rec s active := by
  rw [runPass_snd, specNext]
  congr 1
  congr 1
  exact Finset.filter_congr
    (fun L hL => flagged_iff M hwf t rec s active hco L (List.mem_toFinset.mp hL))

/-- Updating a state at a fixed point along equal inputs keeps the fixed
point: a static behaviour reads only its own mutables and flows. -/
theorem atFix_transfer (M : Mdl V W) (hwf : Wf M) (t : ℚ)
    (s s2 : PState V W) (f : Name) (h : AtFix M t s f)
    (h1 : s2.fxnState f = s.fxnState f)
    (h2 : ∀ L ∈ M.fxnFlows f, s2.flowState L = s.flowState L) :
    AtFix M t s2 f := by
  obtain ⟨ha, hb⟩ := hwf.reads_local f t s2 s h1 h2
  constructor
  · rw [ha, h.1, h1]
  · intro L hL
    rw [hb L hL, h.2 L hL, h2 L hL]

/-- A function's own mutables are untouched by visits of other
functions. -/
theorem foldl_fxnState_of_not_mem (M : Mdl V W) (hwf : Wf M) (t : ℚ)
    (f : Name) :
    ∀ (l : List Name) (s : PState V W), f ∉ l →
      (l.foldl (fun st g => M.stepFxn g t st) s).fxnState f = s.fxnState f := by
  intro l
  induction l with
  | nil => intro s _; rfl
  | cons g rest ih =>
    intro s hf
    rw [List.foldl_cons, ih (M.stepFxn g t s) (fun h => hf (List.mem_cons_of_mem g h))]
    exact hwf.frame_fxn g t s f (fun he => hf (he ▸ List.mem_cons_self g rest))

/-- Taking one past the left part of an append keeps the pivot. -/
theorem take_length_succ_append {α : Type} :
    ∀ (l1 : List α) (a : α) (l2 : List α),
      (l1 ++ a :: l2).take (l1.length + 1) = l1 ++ [a] := by
  intro l1 a l2
  induction l1 with
  | nil => rfl
  | cons b l ih =>
    show b :: (l ++ a :: l2).take (l.length + 1) = b :: (l ++ [a])
    rw [ih]

/-- A static neighbour of a flow that differs from the record at some
checkpoint of the pass belongs to the computed next active set. -/
theorem mem_specNext_of_flow [DecidableEq V] [DecidableEq W] (M : Mdl V W)
    (t : ℚ) (rec : Name → W) (s : PState V W) (active : List Name)
    (f L : Name) (hfs : f ∈ M.staticfxns) (hL : L ∈ M.fxnFlows f)
    (hLs : L ∈ M.staticflows)
    (hex : ∃ i, 1 ≤ i ∧ i ≤ active.length ∧
      (stateAfter M t s active i).flowState L ≠ rec L) :
    f ∈ specNext M t rec s active := by
  rw [specNext]
  apply Finset.mem_union_right
  rw [Finset.mem_biUnion]
  refine ⟨L, ?_, ?_⟩
  · rw [Finset.mem_filter, List.mem_toFinset]
    exact ⟨hLs, hex⟩
  · rw [staticOwners, List.mem_toFinset, List.mem_filter]
    exact ⟨hfs, decide_eq_true hL⟩

/-- The key preservation step: a static function left out of the
computed next active set is at a fixed point at the end of the pass --
whether it was visited (its visit changed nothing and its flows stayed
at the recorded values) or not (its inputs did not change, so its fixed
point transfers). -/
theorem pass_preserves_fix [DecidableEq V] [DecidableEq W] (M : Mdl V W)
    (hwf : Wf M) (t : ℚ) (rec : Name → W) (s : PState V W)
    (active : List Name) (hco : Coherent M rec s)
    (hsub : ∀ f ∈ active, f ∈ M.staticfxns) (hand : active.Nodup)
    (hfix : ∀ f ∈ M.staticfxns, f ∉ active → AtFix M t s f) :
    ∀ f ∈ M.staticfxns, f ∉ specNext M t rec s active →
      AtFix M t (active.foldl (fun st g => M.stepFxn g t st) s) f := by
  intro f hfs hfn
  have hLstat : ∀ L ∈ M.fxnFlows f, L ∈ M.staticflows :=
    fun L hL => hwf.static_flows f hfs L hL
  have hconst : ∀ L ∈ M.fxnFlows f, ∀ i, i ≤ active.length →
      (stateAfter M t s active i).flowState L = rec L := by
    intro L hL i hi
    cases i with
    | zero =>
      rw [stateAfter_zero]
      exact (hco L (hLstat L hL)).symm
    | succ j =>
      by_contra hne
      exact hfn (mem_specNext_of_flow M t rec s active f L hfs hL
        (hLstat L hL) ⟨j + 1, Nat.succ_le_succ (Nat.zero_le j), hi, hne⟩)
  by_cases hmem : f ∈ active
  · obtain ⟨l1, l2, rfl⟩ := List.append_of_mem hmem
    have hnd := List.nodup_append.mp hand
    have hf1 : f ∉ l1 := fun h => hnd.2.2 h (List.mem_cons_self f l2)
    have hf2 : f ∉ l2 := (List.nodup_cons.mp hnd.2.1).1
    have hσA : stateAfter M t s (l1 ++ f :: l2) l1.length =
        l1.foldl (fun st g => M.stepFxn g t st) s := by
      rw [stateAfter, take_length_append]
    have hσB : stateAfter M t s (l1 ++ f :: l2) (l1.length + 1) =
        M.stepFxn f t (l1.foldl (fun st g => M.stepFxn g t st) s) := by
      rw [stateAfter, take_length_succ_append, List.foldl_append]
      rfl
    have hlen1 : l1.length ≤ (l1 ++ f :: l2).length := by
      rw [List.length_append]
      exact Nat.le_add_right _ _
    have hlen2 : l1.length + 1 ≤ (l1 ++ f :: l2).length := by
      rw [List.length_append, List.length_cons]
      exact Nat.add_le_add_left (Nat.succ_le_succ (Nat.zero_le _)) _
    have hown : (l1.foldl (fun st g => M.stepFxn g t st) s).fxnState f =
        (M.stepFxn f t (l1.foldl (fun st g => M.stepFxn g t st) s)).fxnState f := by
      by_contra hch
      apply hfn
      rw [specNext]
      apply Finset.mem_union_left
      rw [vChanged_append]
      apply Finset.mem_union_right
      rw [vChanged]
      apply Finset.mem_union_left
      rw [if_pos hch]
      exact Finset.mem_singleton_self f
    have hfixm : AtFix M t (l1.foldl (fun st g => M.stepFxn g t st) s) f := by
      constructor
      · exact hown.symm
      · intro L hL
        have h1 := hconst L hL (l1.length + 1) hlen2
        have h0 := hconst L hL l1.length hlen1
        rw [hσB] at h1
        rw [hσA] at h0
        rw [h1, h0]
    have hfxn : ((l1 ++ f :: l2).foldl (fun st g => M.stepFxn g t st) s).fxnState f =
        (l1.foldl (fun st g => M.stepFxn g t st) s).fxnState f := by
      rw [List.foldl_append, List.foldl_cons,
        foldl_fxnState_of_not_mem M hwf t f l2
          (M.stepFxn f t (l1.foldl (fun st g => M.stepFxn g t st) s)) hf2]
      exact hown.symm
    have hflw : ∀ L ∈ M.fxnFlows f,
        ((l1 ++ f :: l2).foldl (fun st g => M.stepFxn g t st) s).flowState L =
          (l1.foldl (fun st g => M.stepFxn g t st) s).flowState L := by
      intro L hL
      have hfull := hconst L hL (l1 ++ f :: l2).length (le_refl _)
      rw [stateAfter_full] at hfull
      have h0 := hconst L hL l1.length hlen1
      rw [hσA] at h0
      rw [hfull, h0]
    exact atFix_transfer M hwf t (l1.foldl (fun st g => M.stepFxn g t st) s)
      _ f hfixm hfxn hflw
  · have hfxn : (active.foldl (fun st g => M.stepFxn g t st) s).fxnState f =
        s.fxnState f :=
      foldl_fxnState_of_not_mem M hwf t f active s hmem
    have hflw : ∀ L ∈ M.fxnFlows f,
        (active.foldl (fun st g => M.stepFxn g t st) s).flowState L =
          s.flowState L := by
      intro L hL
      have hfull := hconst L hL active.length (le_refl _)
      rw [stateAfter_full] at hfull
      rw [hfull]
      exact hco L (hLstat L hL)
    exact atFix_transfer M hwf t s _ f (hfix f hfs hmem) hfxn hflw

/-- When the static loop returns normally, the record is coherent with
the final state and every static function is at a fixed point there. -/
theorem propStaticAux_ok_fix [DecidableEq V] [DecidableEq W] (M : Mdl V W)
    (hwf : Wf M) (t : ℚ) :
    ∀ (b : ℕ) (active : List Name) (s : PState V W) (rec : Name → W)
      (s1 : PState V W) (rec1 : Name → W) (tr : List Call),
      Coherent M rec s → (∀ f ∈ active, f ∈ M.staticfxns) → active.Nodup →
      (∀ f ∈ M.staticfxns, f ∉ active → AtFix M t s f) →
      propStaticAux M t b active s rec = (.ok (s1, rec1), tr) →
      Coherent M rec1 s1 ∧ ∀ f ∈ M.staticfxns, AtFix M t s1 f := by
  intro b
  induction b with
  | zero =>
    intro active s rec s1 rec1 tr hco hsub hand hfix heq
    cases active with
    | nil =>
      rw [propStaticAux_nil] at heq
      injection heq with h1 h2
      injection h1 with h3
      injection h3 with h4 h5
      subst h4
      subst h5
      exact ⟨hco, fun f hf => hfix f hf (List.not_mem_nil f)⟩
    | cons f rest =>
      rw [propStaticAux_zero_cons] at heq
      injection heq with h1 h2
      exact Except.noConfusion h1
  | succ b ih =>
    intro active s rec s1 rec1 tr hco hsub hand hfix heq
    cases active with
    | nil =>
      rw [propStaticAux_nil] at heq
      injection heq with h1 h2
      injection h1 with h3
      injection h3 with h4 h5
      subst h4
      subst h5
      exact ⟨hco, fun f hf => hfix f hf (List.not_mem_nil f)⟩
    | cons f rest =>
      rw [propStaticAux_succ_cons,
        runPass_snd_spec M hwf t rec s (f :: rest) hco, runPass_fst] at heq
      injection heq with h1 h2
      refine ih (M.staticfxns.filter
          (fun g => g ∈ specNext M t rec s (f :: rest)))
        ((f :: rest).foldl (fun st g => M.stepFxn g t st) s)
        (fun L => if L ∈ M.staticflows
          then ((f :: rest).foldl (fun st g => M.stepFxn g t st) s).flowState L
          else rec L)
        s1 rec1 _ ?_ ?_ ?_ ?_ (Prod.ext h1 rfl)
      · intro L hL
        exact if_pos hL
      · intro g hg
        exact (List.mem_filter.mp hg).1
      · exact List.Nodup.filter _ hwf.static_nodup
      · intro g hgs hgn
        refine pass_preserves_fix M hwf t rec s (f :: rest) hco hsub hand hfix
          g hgs ?_
        intro hmem2
        exact hgn (List.mem_filter.mpr ⟨hgs, decide_eq_true hmem2⟩)

/-- Claim C4: static fixed-point idempotence. Once `prop_static` (whose
behaviours are deterministic functions of block state, flow state and
time) returns normally at time `t`, one further pass over the whole
static set changes nothing and computes an empty next active set, and
re-running `prop_static` from the reached state with the persistent
record, the same time and no disturbances terminates after that single
pass, returning the same state and record. -/
theorem prop_static_idempotent [DecidableEq V] [DecidableEq W] (M : Mdl V W)
    (hwf : Wf M) (t : ℚ) (s0 : PState V W) (fs : Option (Name → W))
    (hco : Coherent M (recInit fs s0) s0) (s1 : PState V W) (rec1 : Name → W)
    (tr : List Call)
    (hok : prop_static M t s0 fs = (.ok (s1, rec1), tr)) :
    runPass M t rec1 s1 M.staticfxns = (s1, ∅)
    ∧ prop_static M t s1 (some rec1) =
        (.ok (s1, rec1), M.staticfxns.map Call.stat) := by
  obtain ⟨hco1, hfix1⟩ := propStaticAux_ok_fix M hwf t 1000 M.staticfxns s0
    (recInit fs s0) s1 rec1 tr hco (fun f hf => hf) hwf.static_nodup
    (fun f hf hnf => absurd hf hnf) hok
  have hrp : runPass M t rec1 s1 M.staticfxns = (s1, ∅) :=
    runPass_of_atFix M hwf t rec1 s1 M.staticfxns hco1
      (fun f hf => hfix1 f hf)
  refine ⟨hrp, ?_⟩
  cases hsf : M.staticfxns with
  | nil =>
    rw [prop_static, hsf, propStaticAux_nil]
    rfl
  | cons f rest =>
    have h1000 : (1000 : ℕ) = 999 + 1 := rfl
    rw [prop_static, hsf, h1000, propStaticAux_succ_cons,
      show recInit (some rec1) s1 = rec1 from rfl]
    rw [hsf] at hrp
    rw [hrp]
    have hrec : (fun L => if L ∈ M.staticflows
        then ((s1, (∅ : Finset Name)).1).flowState L else rec1 L) = rec1 := by
      funext L
      by_cases hL : L ∈ M.staticflows
      · rw [if_pos hL]
        exact (hco1 L hL).symm
      · rw [if_neg hL]
    have hact : M.staticfxns.filter
        (fun g => g ∈ (s1, (∅ : Finset Name)).2) = [] := by
      apply filter_eq_nil_of_ne
      intro x _
      exact decide_eq_false (Finset.not_mem_empty x)
    rw [hrec, hact, propStaticAux_nil]
    simp

/-- The witness model for claim C4: a single static function with the
identity behaviour, so the first run converges in one pass. -/
def Mfix : Mdl Bool Bool :=
  ⟨[0], [0], [], [], fun _ => [], fun _ _ s => s, fun _ _ _ s => s⟩

theorem Mfix_wf : Wf Mfix := by
  refine ⟨?_, ?_, ?_, ?_, ?_⟩
  · decide
  · intro f _ L hL
    exact absurd hL (List.not_mem_nil L)
  · intro f t s g _
    rfl
  · intro f t s L _
    rfl
  · intro f t s s2 h1 h2
    exact ⟨h1, h2⟩

/-- Witness for claim C4 at the concrete model `Mfix`. -/
theorem prop_static_idempotent_witness :
    runPass Mfix 0 (fun L => wS0.flowState L) wS0 Mfix.staticfxns =
      (wS0, ∅)
    ∧ prop_static Mfix 0 wS0 (some (fun L => wS0.flowState L)) =
        (.ok (wS0, fun L => wS0.flowState L), Mfix.staticfxns.map Call.stat) :=
  prop_static_idempotent Mfix Mfix_wf 0 wS0 none
    (fun L hL => absurd hL (List.not_mem_nil L)) wS0
    (fun L => wS0.flowState L) [Call.stat 0] rfl

end Fmdtools
